import Mathlib

/-!
# lyra::xstd::type_list — a shallow embedding

`type_list<types...>` is an empty struct whose whole content is its template
parameter pack.  A value of `type_list<types...>` is therefore modelled by the
list of its parameters: `List α`, where `α` is the universe of types (markers).
Every function of `src/lyra/xstd/type_list.hpp` is `consteval` (or only
declared, for use inside `decltype`), so a call either yields one result or is
ill-formed.  An ill-formed call (a deleted overload, an unsatisfied `requires`
clause, no viable overload, an ill-formed fold expression) is modelled by
`none`.

Markers are not opaque to the header.  `element` is only declared, with return
type `type`, and is read through `decltype(element<index>(list))`, the type of
a call expression.  The type of a call to a function declared `-> type` is not
always `type`: a top-level `const` on a non-class type is dropped, and an array
type cannot be returned at all, so that no overload is viable.  The embedding
carries this as a parameter `ret : α → Option α`, where `ret type` is
`decltype(f())` for a function `f` declared `-> type` (`none` when that
declaration is ill-formed).  `Marker.ret` is this function on the sample of
types `Marker`.  A marker with `ret type = some type` is called plain here;
every type used by `src/tests/basics/type_list.cpp` is plain.

All indices are `size_t`.  Every subtraction and addition on them in the header
is guarded by a `requires` clause or an `if constexpr` that excludes wrap-around
(`index - 1` only for `0 < index`, `n - last` only for `last <= n`, `i + 1` and
`j + 1` only below `size(list)`), so `Nat` arithmetic agrees with the machine
arithmetic on every path that is not rejected.
-/

namespace lyra.xstd

/-- The concrete types used by `src/tests/basics/type_list.cpp`, with nested
`type_list` instances as markers of their own, together with `const T` and the
array type `T[extent]`. -/
inductive Marker where
  | char
  | short
  | int
  | unsigned
  | float
  | double
  | void
  | type_list (types : List Marker)
  | cv_const (type : Marker)
  | array (type : Marker) (extent : Nat)

/-- Values of `sizeof` read by the comparators of the test file (LP64 data
model; an empty struct has size 1; `void` is never compared by a test). -/
def Marker.sizeof : Marker → Nat
  | .char => 1
  | .short => 2
  | .int => 4
  | .unsigned => 4
  | .float => 4
  | .double => 8
  | .void => 1
  | .type_list _ => 1
  | .cv_const type => Marker.sizeof type
  | .array type extent => extent * Marker.sizeof type

/-- The type of a call to a function declared `-> type`, on the sample types:
an array type is not a valid return type (also when written `const T[n]`); a
prvalue of non-class type loses its top-level `const`; a class type (here a
`type_list` instance) keeps it; every other sample type is returned as it
is. -/
def Marker.ret : Marker → Option Marker
  | .array _ _ => none
  | .cv_const (.type_list types) => some (.cv_const (.type_list types))
  | .cv_const type => Marker.ret type
  | type => some type

mutual
/-- Structural equality test on the sample types. -/
def Marker.beq : Marker → Marker → Bool
  | .char, .char => true
  | .short, .short => true
  | .int, .int => true
  | .unsigned, .unsigned => true
  | .float, .float => true
  | .double, .double => true
  | .void, .void => true
  | .type_list a, .type_list b => Marker.beqList a b
  | .cv_const a, .cv_const b => Marker.beq a b
  | .array a n, .array b m => Marker.beq a b && decide (n = m)
  | _, _ => false
/-- Structural equality test on lists of sample types. -/
def Marker.beqList : List Marker → List Marker → Bool
  | [], [] => true
  | a :: as, b :: bs => Marker.beq a b && Marker.beqList as bs
  | _, _ => false
end

mutual
theorem Marker.eq_of_beq : ∀ a b : Marker, Marker.beq a b = true → a = b
  | .char, b, h => by cases b <;> simp_all [Marker.beq]
  | .short, b, h => by cases b <;> simp_all [Marker.beq]
  | .int, b, h => by cases b <;> simp_all [Marker.beq]
  | .unsigned, b, h => by cases b <;> simp_all [Marker.beq]
  | .float, b, h => by cases b <;> simp_all [Marker.beq]
  | .double, b, h => by cases b <;> simp_all [Marker.beq]
  | .void, b, h => by cases b <;> simp_all [Marker.beq]
  | .type_list x, .type_list y, h => by
    rw [Marker.beq] at h
    rw [Marker.eqList_of_beqList x y h]
  | .cv_const x, .cv_const y, h => by
    rw [Marker.beq] at h
    rw [Marker.eq_of_beq x y h]
  | .array x n, .array y m, h => by
    rw [Marker.beq, Bool.and_eq_true, decide_eq_true_eq] at h
    rw [Marker.eq_of_beq x y h.1, h.2]
  | .type_list x, .char, h | .type_list x, .short, h | .type_list x, .int, h
  | .type_list x, .unsigned, h | .type_list x, .float, h | .type_list x, .double, h
  | .type_list x, .void, h | .type_list x, .cv_const _, h | .type_list x, .array _ _, h => by
    simp [Marker.beq] at h
  | .cv_const x, .char, h | .cv_const x, .short, h | .cv_const x, .int, h
  | .cv_const x, .unsigned, h | .cv_const x, .float, h | .cv_const x, .double, h
  | .cv_const x, .void, h | .cv_const x, .type_list _, h | .cv_const x, .array _ _, h => by
    simp [Marker.beq] at h
  | .array x n, .char, h | .array x n, .short, h | .array x n, .int, h
  | .array x n, .unsigned, h | .array x n, .float, h | .array x n, .double, h
  | .array x n, .void, h | .array x n, .type_list _, h | .array x n, .cv_const _, h => by
    simp [Marker.beq] at h
theorem Marker.eqList_of_beqList :
    ∀ a b : List Marker, Marker.beqList a b = true → a = b
  | [], [], _ => rfl
  | [], _ :: _, h => by simp [Marker.beqList] at h
  | _ :: _, [], h => by simp [Marker.beqList] at h
  | x :: xs, y :: ys, h => by
    rw [Marker.beqList, Bool.and_eq_true] at h
    rw [Marker.eq_of_beq x y h.1, Marker.eqList_of_beqList xs ys h.2]
end

mutual
theorem Marker.beq_self : ∀ a : Marker, Marker.beq a a = true
  | .char | .short | .int | .unsigned | .float | .double | .void => by simp [Marker.beq]
  | .type_list x => by rw [Marker.beq]; exact Marker.beqList_self x
  | .cv_const x => by rw [Marker.beq]; exact Marker.beq_self x
  | .array x n => by rw [Marker.beq, Marker.beq_self x]; simp
theorem Marker.beqList_self : ∀ a : List Marker, Marker.beqList a a = true
  | [] => by simp [Marker.beqList]
  | x :: xs => by rw [Marker.beqList, Marker.beq_self x, Marker.beqList_self xs]; rfl
end

instance : DecidableEq Marker := fun a b =>
  if h : Marker.beq a b = true then isTrue (Marker.eq_of_beq a b h)
  else isFalse (fun e => h (e ▸ Marker.beq_self a))

/-- The comparator `less` of the test file, lines 10-12:
`sizeof(x) <= sizeof(y)`. -/
def test_less (x y : Marker) : Bool := decide (x.sizeof ≤ y.sizeof)

/-- A comparator that tells `const int` from `int`: it orders the types by a
rank with `const int` first, then `char`, then `int`, then the rest. -/
def Marker.rank : Marker → Nat
  | .cv_const .int => 0
  | .char => 1
  | .int => 2
  | _ => 3

/-- The total order `rank(x) <= rank(y)`. -/
def rank_less (x y : Marker) : Bool := decide (x.rank ≤ y.rank)

/-- Modelled from the spec: `meta::equal<x, y>` is declared in
`lyra/xstd/utility.hpp`, which is not part of the sources at hand.  The spec
says markers are compared only for exact identity. -/
def meta.equal {α : Type} [DecidableEq α] (x y : α) : Bool := decide (x = y)

variable {α β : Type}

/-- A list all of whose markers are returned unchanged by a function call. -/
def plain (ret : α → Option α) (list : List α) : Prop := ∀ x ∈ list, ret x = some x

/-- Lines 70-73: `size` is `sizeof...(types)`. -/
def size (list : List α) : Nat := list.length

/-- Lines 78-81: `for_all` is the unary right fold of `&&` over the pack;
on an empty pack that fold is `true`. -/
def for_all : List α → (α → Bool) → Bool
  | [], _ => true
  | [t], f => f t
  | t :: u :: types, f => f t && for_all (u :: types) f

/-- Lines 86-89: `exists` is the unary right fold of `||` over the pack;
on an empty pack that fold is `false`. -/
def exists_ : List α → (α → Bool) → Bool
  | [], _ => false
  | [t], f => f t
  | t :: u :: types, f => f t || exists_ (u :: types) f

/-- Lines 93-95. -/
def empty (list : List α) : Bool := size list == 0

/-- Lines 104-107: `contains<type>(list)`. -/
def contains [DecidableEq α] (type : α) (list : List α) : Bool :=
  exists_ list (fun t => meta.equal t type)

/-- Lines 112-115: `contains(list, type_list<type>)`; the second parameter
only matches a one-slot list. -/
def contains_slice [DecidableEq α] (list : List α) : List α → Option Bool
  | [type] => some (contains type list)
  | _ => none

/-- Lines 123-133: `decltype(element<index>(list))`.  The overload for
`type_list<>` is deleted.  On a non-empty list, index `0` selects the overload
declared `-> type`, so the call has type `ret type`.  An index with
`0 < index && index < size(list)` selects the overload declared
`-> decltype(element<index - 1>(type_list<types...>{}))`, and the call to it
has the type `ret` gives for that declared type. -/
def element (ret : α → Option α) : Nat → List α → Option α
  | _, [] => none
  | 0, type :: _ => ret type
  | index + 1, type :: types =>
    if index + 1 < size (type :: types) then (element ret index types).bind ret else none

/-- Lines 139-142: `slice<index>(list)` is
`type_list<decltype(element<index>(list))>`. -/
def slice (ret : α → Option α) (index : Nat) (list : List α) : Option (List α) :=
  (element ret index list).map (fun type => [type])

/-- Lines 146-147: `decltype(front(list))`; `front` requires `!empty(list)`
and is declared `-> decltype(element<0>(list))`. -/
def front (ret : α → Option α) (list : List α) : Option α :=
  if !empty list then (element ret 0 list).bind ret else none

/-- Lines 153-157: `front_slice(list)` requires `!empty(list)` and is
`type_list<decltype(front(list))>`. -/
def front_slice (ret : α → Option α) (list : List α) : Option (List α) :=
  if !empty list then (front ret list).map (fun type => [type]) else none

/-- Lines 165-167: `decltype(back(x))`; `back` requires `!empty(x)` and is
declared `-> decltype(element<size - 1>(x))`. -/
def back (ret : α → Option α) (x : List α) : Option α :=
  if !empty x then (element ret (size x - 1) x).bind ret else none

/-- Lines 173-177: `back_slice(list)` requires `!empty(list)` and is
`type_list<decltype(back(list))>`. -/
def back_slice (ret : α → Option α) (list : List α) : Option (List α) :=
  if !empty list then (back ret list).map (fun type => [type]) else none

/-- Lines 190-193. -/
def push_front (type : α) (types : List α) : List α := type :: types

/-- Lines 198-201. -/
def push_back (type : α) (types : List α) : List α := types ++ [type]

/-- Lines 205-213: `concat(x, y)`, also written `x + y`. -/
def concat (x y : List α) : List α := x ++ y

/-- Lines 217-222: `pop_front(list)`; deleted for `type_list<>`, the tail of
the pack otherwise. -/
def pop_front : List α → Option (List α)
  | [] => none
  | _ :: types => some types

/-- Lines 159-161: `*list` is `front_slice(list)`. -/
def op_star (ret : α → Option α) (list : List α) : Option (List α) := front_slice ret list

/-- Lines 179-181: `!list` is `back_slice(list)`. -/
def op_not (ret : α → Option α) (list : List α) : Option (List α) := back_slice ret list

/-- Lines 224-226: `--list` is `pop_front(list)`. -/
def op_pre_decrement (list : List α) : Option (List α) := pop_front list

/-- Lines 230-240: `pop_back(list)`; deleted for `type_list<>`, empty for a
one-slot list, and `*list + pop_back(--list)` otherwise, where `--list` of
`type :: u :: types` is `u :: types`. -/
def pop_back (ret : α → Option α) : List α → Option (List α)
  | [] => none
  | [_] => some []
  | type :: u :: types =>
    (op_star ret (type :: u :: types)).bind (fun f =>
      (pop_back ret (u :: types)).map (fun r => concat f r))

/-- Lines 242-244: `list--` is `pop_back(list)`. -/
def op_post_decrement (ret : α → Option α) (list : List α) : Option (List α) :=
  pop_back ret list

/-- Lines 248-255: `reverse(list)`; the list itself for `type_list<>` and
`reverse(--list) + *list` otherwise. -/
def reverse (ret : α → Option α) : List α → Option (List α)
  | [] => some []
  | type :: types =>
    (reverse ret types).bind (fun r =>
      (op_star ret (type :: types)).map (fun f => concat r f))

/-- Lines 263-273: `insert<index, type>(list)` requires
`index <= size(list)`; `push_front<type>(list)` for index `0` and
`*list + insert<index - 1, type>(--list)` otherwise. -/
def insert_index (ret : α → Option α) : Nat → α → List α → Option (List α)
  | 0, type, list => some (push_front type list)
  | _ + 1, _, [] => none
  | index + 1, type, t :: types =>
    if index + 1 ≤ size (t :: types) then
      (op_star ret (t :: types)).bind (fun f =>
        (insert_index ret index type types).map (fun r => concat f r))
    else none

/-- Lines 277-290: `insert<type>(list, less)`.  On a non-empty list the
comparator is applied to `type` and `decltype(front(list))`; when it holds the
result is `push_front<type>(list)`, otherwise
`*list + insert<type>(--list, less)`. -/
def insert (ret : α → Option α) (type : α) : List α → (α → α → Bool) → Option (List α)
  | [], _ => some [type]
  | t :: types, less =>
    (front ret (t :: types)).bind (fun x =>
      if less type x then some (push_front type (t :: types))
      else
        (op_star ret (t :: types)).bind (fun f =>
          (insert ret type types less).map (fun r => concat f r)))

/-- Lines 294-305: `remove<index>(list)` requires `index < size(list)`;
`--list` for index `0` and `*list + remove<index - 1>(--list)` otherwise. -/
def remove_index (ret : α → Option α) : Nat → List α → Option (List α)
  | _, [] => none
  | 0, t :: types => op_pre_decrement (t :: types)
  | index + 1, t :: types =>
    if index + 1 < size (t :: types) then
      (op_star ret (t :: types)).bind (fun f =>
        (remove_index ret index types).map (fun r => concat f r))
    else none

/-- Lines 310-321: `remove(list, f)`.  On a non-empty list the predicate is
applied to `decltype(front(list))`; when it holds the result is
`remove(--list, f)`, otherwise `*list + remove(--list, f)`. -/
def remove (ret : α → Option α) : List α → (α → Bool) → Option (List α)
  | [], _ => some []
  | t :: types, f =>
    (front ret (t :: types)).bind (fun x =>
      if f x then remove ret types f
      else
        (op_star ret (t :: types)).bind (fun s =>
          (remove ret types f).map (fun r => concat s r)))

/-- Lines 325-336: `trim_front<n>(list)`; `n == 0` returns the list, and
otherwise `0 < n && n <= size(list)` is required. -/
def trim_front : Nat → List α → Option (List α)
  | 0, list => some list
  | n + 1, list =>
    if n + 1 ≤ size list then (pop_front list).bind (trim_front n) else none

/-- Lines 340-351: `trim_back<n>(list)`. -/
def trim_back (ret : α → Option α) : Nat → List α → Option (List α)
  | 0, list => some list
  | n + 1, list =>
    if n + 1 ≤ size list then (pop_back ret list).bind (trim_back ret n) else none

/-- Lines 355-361: `range<first, last>(list)` requires
`first <= last && last <= size(list)` and is
`trim_front<first>(trim_back<n - last>(list))`. -/
def range (ret : α → Option α) (first last : Nat) (list : List α) : Option (List α) :=
  if first ≤ last ∧ last ≤ size list then
    (trim_back ret (size list - last) list).bind (trim_front first)
  else none

/-- Lines 365-386: `swap<i, j>(list)`.  Three overloads: `i == j` (with
`j < size(list)`) returns the list; `i < j` (with `j < size(list)`) rebuilds
it from five pieces, `+` associating to the left; `j < i` (with
`i < size(list)`) is `swap<j, i>(list)`, that is the second overload with the
indices exchanged. -/
def swap (ret : α → Option α) (i j : Nat) (list : List α) : Option (List α) :=
  if i = j then
    if j < size list then some list else none
  else if i < j then
    if j < size list then do
      let a ← range ret 0 i list
      let b ← slice ret j list
      let c ← range ret (i + 1) j list
      let d ← slice ret i list
      let e ← range ret (j + 1) (size list) list
      pure (concat (concat (concat (concat a b) c) d) e)
    else none
  else
    if i < size list then do
      let a ← range ret 0 j list
      let b ← slice ret i list
      let c ← range ret (j + 1) i list
      let d ← slice ret j list
      let e ← range ret (i + 1) (size list) list
      pure (concat (concat (concat (concat a b) c) d) e)
    else none

/-- Lines 390-408: `merge(left, right, less)`.  The constrained overload
(`empty(left) || empty(right)`) returns `left + right`.  The other one is only
selected when both lists are non-empty: it applies the comparator to
`decltype(front(left))` and `decltype(front(right))` and pushes one of these
two types in front of the merge of the rest, where `pop_front` of a non-empty
list is its tail. -/
def merge (ret : α → Option α) : List α → List α → (α → α → Bool) → Option (List α)
  | [], right, _ => some (concat [] right)
  | a :: l, [], _ => some (concat (a :: l) [])
  | a :: l, b :: r, less =>
    (front ret (a :: l)).bind (fun x =>
      (front ret (b :: r)).bind (fun y =>
        if less x y then (merge ret l (b :: r) less).map (fun m => push_front x m)
        else (merge ret (a :: l) r less).map (fun m => push_front y m)))

/-- Lines 427-431: `transform(list, f)` is the unary right fold of `+` over
the results of `f`.  A unary fold of `+` over an empty pack is ill-formed
(only `&&`, `||` and `,` have a value there). -/
def transform : List α → (α → List β) → Option (List β)
  | [], _ => none
  | [t], f => some (f t)
  | t :: u :: types, f => (transform (u :: types) f).map (fun r => concat (f t) r)

/-- The mapping function of the test file, lines 437-442: `void` is mapped to
the one-slot list holding `type_list<>`, every other type to the one-slot
list holding it. -/
def test_transform_f : Marker → List Marker
  | .void => [Marker.type_list []]
  | x => [x]

/-- The strict comparator of the test file, lines 431-433:
`sizeof(x) > sizeof(y)`. -/
def test_greater (x y : Marker) : Bool := decide (x.sizeof > y.sizeof)

/-! ### Sizes of the trimming operations

These facts hold for every `ret`; they are needed to see that the recursion
of `sort` is well-founded. -/

theorem pop_front_eq (list : List α) :
    pop_front list = if size list = 0 then none else some (list.drop 1) := by
  cases list <;> simp [pop_front, size]

theorem trim_front_eq (n : Nat) (list : List α) :
    trim_front n list = if n ≤ size list then some (list.drop n) else none := by
  induction n generalizing list with
  | zero => simp [trim_front]
  | succ n ih =>
    cases list with
    | nil => simp [trim_front, size]
    | cons t types =>
      simp only [trim_front, pop_front, Option.some_bind, ih, size, List.length_cons,
        List.drop_succ_cons]
      by_cases h : n ≤ types.length <;> simp [h]

theorem front_slice_size (ret : α → Option α) {list f : List α}
    (h : front_slice ret list = some f) : size f = 1 := by
  unfold front_slice at h
  split at h
  · cases hf : front ret list with
    | none => simp [hf] at h
    | some x =>
      simp only [hf, Option.map_some', Option.some.injEq] at h
      subst h
      rfl
  · simp at h

theorem pop_back_size (ret : α → Option α) :
    ∀ {list r : List α}, pop_back ret list = some r → size r + 1 = size list
  | [], _, h => by simp [pop_back] at h
  | [_], r, h => by
    simp only [pop_back, Option.some.injEq] at h
    subst h
    rfl
  | type :: u :: types, r, h => by
    simp only [pop_back, op_star] at h
    cases hf : front_slice ret (type :: u :: types) with
    | none => simp [hf] at h
    | some f =>
      cases hp : pop_back ret (u :: types) with
      | none => simp [hf, hp] at h
      | some p =>
        simp only [hf, hp, Option.some_bind, Option.map_some', Option.some.injEq] at h
        subst h
        have h1 := front_slice_size ret hf
        have h2 := pop_back_size ret hp
        simp only [size, concat, List.length_append, List.length_cons] at h1 h2 ⊢
        omega

theorem trim_back_size (ret : α → Option α) {n : Nat} {list r : List α}
    (h : trim_back ret n list = some r) : size r + n = size list := by
  induction n generalizing list with
  | zero =>
    simp only [trim_back, Option.some.injEq] at h
    subst h
    rfl
  | succ n ih =>
    simp only [trim_back] at h
    split at h
    · cases hp : pop_back ret list with
      | none => simp [hp] at h
      | some p =>
        simp only [hp, Option.some_bind] at h
        have h1 := pop_back_size ret hp
        have h2 := ih h
        omega
    · simp at h

theorem range_size (ret : α → Option α) {first last : Nat} {list r : List α}
    (h : range ret first last list = some r) : size r = last - first := by
  unfold range at h
  split at h
  · rename_i hb
    cases ht : trim_back ret (size list - last) list with
    | none => simp [ht] at h
    | some t =>
      simp only [ht, Option.some_bind, trim_front_eq] at h
      have h1 := trim_back_size ret ht
      split at h
      · simp only [Option.some.injEq] at h
        subst h
        simp only [size, List.length_drop] at h1 hb ⊢
        omega
      · simp at h
  · simp at h

/-- Lines 412-423: `sort(list, less)`.  The constrained overload
(`size(list) < 2`) returns the list; otherwise the list is split by `range` at
`half = n / 2` and the sorted halves are merged. -/
def sort (ret : α → Option α) (list : List α) (less : α → α → Bool) : Option (List α) :=
  if size list < 2 then some list
  else
    match _h1 : range ret 0 (size list / 2) list,
      _h2 : range ret (size list / 2) (size list) list with
    | some l, some r =>
      match sort ret l less, sort ret r less with
      | some sl, some sr => merge ret sl sr less
      | _, _ => none
    | _, _ => none
termination_by size list
decreasing_by
  · have h := range_size ret _h1
    omega
  · have h := range_size ret _h2
    omega

/-! ### The operations on plain markers -/

theorem plain_cons (ret : α → Option α) (t : α) (types : List α) :
    plain ret (t :: types) ↔ ret t = some t ∧ plain ret types := by
  simp [plain]

theorem plain_of_subset (ret : α → Option α) {l k : List α} (hs : ∀ x ∈ k, x ∈ l)
    (h : plain ret l) : plain ret k :=
  fun x hx => h x (hs x hx)

theorem plain_append (ret : α → Option α) (l k : List α) :
    plain ret (l ++ k) ↔ plain ret l ∧ plain ret k := by
  simp only [plain, List.mem_append]
  constructor
  · intro h
    exact ⟨fun x hx => h x (Or.inl hx), fun x hx => h x (Or.inr hx)⟩
  · rintro ⟨h1, h2⟩ x (hx | hx)
    · exact h1 x hx
    · exact h2 x hx

theorem plain_take (ret : α → Option α) (n : Nat) {l : List α} (h : plain ret l) :
    plain ret (l.take n) :=
  plain_of_subset ret (fun _ hx => List.mem_of_mem_take hx) h

theorem plain_drop (ret : α → Option α) (n : Nat) {l : List α} (h : plain ret l) :
    plain ret (l.drop n) :=
  plain_of_subset ret (fun _ hx => List.mem_of_mem_drop hx) h

theorem plain_some (list : List α) : plain some list := fun _ _ => rfl

theorem element_eq (ret : α → Option α) (index : Nat) (list : List α)
    (h : plain ret list) : element ret index list = list[index]? := by
  induction list generalizing index with
  | nil => cases index <;> simp [element]
  | cons t types ih =>
    rw [plain_cons] at h
    cases index with
    | zero => simp [element, h.1]
    | succ n =>
      simp only [element, size, List.length_cons, ih n h.2, List.getElem?_cons_succ]
      by_cases hn : n < types.length
      · have hx : types[n] ∈ types := List.getElem_mem hn
        simp [hn, List.getElem?_eq_getElem hn, h.2 _ hx]
      · simp only [Nat.add_lt_add_iff_right, hn, if_false]
        exact (List.getElem?_eq_none (Nat.le_of_not_lt hn)).symm

theorem element_some_iff (ret : α → Option α) (index : Nat) (list : List α)
    (h : plain ret list) : (element ret index list).isSome = true ↔ index < size list := by
  rw [element_eq ret index list h, size]
  constructor
  · intro h
    by_contra hn
    rw [List.getElem?_eq_none (Nat.le_of_not_lt hn)] at h
    simp at h
  · intro h
    rw [List.getElem?_eq_getElem h]
    rfl

theorem front_cons (ret : α → Option α) (t : α) (types : List α) (h : ret t = some t) :
    front ret (t :: types) = some t := by
  simp [front, empty, size, element, h]

theorem op_star_cons (ret : α → Option α) (t : α) (types : List α) (h : ret t = some t) :
    op_star ret (t :: types) = some [t] := by
  simp [op_star, front_slice, empty, size, front_cons ret t types h]

theorem pop_back_eq (ret : α → Option α) (list : List α) (h : plain ret list) :
    pop_back ret list = if size list = 0 then none else some list.dropLast := by
  induction list with
  | nil => simp [pop_back, size]
  | cons t types ih =>
    rw [plain_cons] at h
    cases types with
    | nil => simp [pop_back, size]
    | cons u types =>
      have ih2 := ih h.2
      simp only [size, List.length_cons, Nat.add_one_ne_zero, if_false] at ih2 ⊢
      simp [pop_back, op_star_cons ret t (u :: types) h.1, ih2, concat]

theorem trim_back_eq (ret : α → Option α) (n : Nat) (list : List α) (h : plain ret list) :
    trim_back ret n list =
      if n ≤ size list then some (list.take (size list - n)) else none := by
  induction n generalizing list with
  | zero => simp [trim_back, size]
  | succ n ih =>
    by_cases hn : n + 1 ≤ list.length
    · have hne : list.length ≠ 0 := by omega
      have hle : n ≤ list.length - 1 := by omega
      have hmin : min (list.length - 1 - n) list.length = list.length - (n + 1) := by
        omega
      have hd : plain ret list.dropLast :=
        plain_of_subset ret (fun _ hx => List.mem_of_mem_dropLast hx) h
      have hstep : trim_back ret (n + 1) list = trim_back ret n list.dropLast := by
        simp [trim_back, size, hn, pop_back_eq ret list h, hne]
      rw [hstep, ih list.dropLast hd]
      simp [size, hn, hle, List.dropLast_eq_take, List.take_take, hmin]
    · simp [trim_back, size, hn]

theorem range_eq (ret : α → Option α) (first last : Nat) (list : List α)
    (h : plain ret list) :
    range ret first last list =
      if first ≤ last ∧ last ≤ size list then some ((list.take last).drop first) else none := by
  unfold range
  by_cases hg : first ≤ last ∧ last ≤ size list
  · obtain ⟨h1, h2⟩ := hg
    have h3 : size list - last ≤ size list := Nat.sub_le _ _
    have h4 : size list - (size list - last) = last := by omega
    have h5 : first ≤ size (list.take last) := by
      simp only [size, List.length_take] at h2 ⊢
      omega
    simp [trim_back_eq ret _ list h, trim_front_eq, h1, h2, h4, h5]
  · simp [hg]

/-! ### `merge` and `sort` on plain markers -/

theorem merge_eq_list_merge (ret : α → Option α) (left right : List α)
    (less : α → α → Bool) (hl : plain ret left) (hr : plain ret right) :
    merge ret left right less = some (List.merge left right less) := by
  induction left generalizing right with
  | nil => simp [merge, concat]
  | cons a l ihl =>
    induction right with
    | nil => simp [merge, concat]
    | cons b r ihr =>
      have ha := ((plain_cons ret a l).mp hl).1
      have hb := ((plain_cons ret b r).mp hr).1
      by_cases h : less a b = true
      · simp [merge, front_cons ret a l ha, front_cons ret b r hb, push_front, h,
          ihl (b :: r) ((plain_cons ret a l).mp hl).2 hr, List.cons_merge_cons]
      · simp [merge, front_cons ret a l ha, front_cons ret b r hb, push_front, h,
          ihr ((plain_cons ret b r).mp hr).2, List.cons_merge_cons]

theorem plain_list_merge (ret : α → Option α) (left right : List α) (less : α → α → Bool)
    (hl : plain ret left) (hr : plain ret right) :
    plain ret (List.merge left right less) := by
  intro x hx
  rcases List.mem_merge.mp hx with h | h
  · exact hl x h
  · exact hr x h

theorem sort_small (ret : α → Option α) (list : List α) (less : α → α → Bool)
    (h : size list < 2) : sort ret list less = some list := by
  rw [sort]
  simp [h]

theorem sort_step (ret : α → Option α) (list : List α) (less : α → α → Bool)
    (hp : plain ret list) (h : ¬ size list < 2) :
    sort ret list less =
      (sort ret (list.take (size list / 2)) less).bind (fun sl =>
        (sort ret (list.drop (size list / 2)) less).bind (fun sr =>
          merge ret sl sr less)) := by
  rw [sort]
  have h1 : range ret 0 (size list / 2) list = some (list.take (size list / 2)) := by
    rw [range_eq ret _ _ list hp]
    simp
    omega
  have h2 : range ret (size list / 2) (size list) list =
      some (list.drop (size list / 2)) := by
    rw [range_eq ret _ _ list hp]
    simp [size]
    omega
  simp only [h, if_false]
  split
  · rename_i l r e1 e2
    rw [h1] at e1
    rw [h2] at e2
    simp only [Option.some.injEq] at e1 e2
    subst e1 e2
    split
    · rename_i sl sr e3 e4
      simp [e3, e4]
    · rename_i e3
      cases e5 : sort ret (List.take (size list / 2) list) less with
      | none => simp
      | some sl =>
        cases e6 : sort ret (List.drop (size list / 2) list) less with
        | none => simp
        | some sr => exact absurd e6 (e3 sl sr e5)
  · rename_i e3
    exact absurd h2 (e3 _ _ h1)

/-- Induction along the recursion of `sort` on a plain list: a relation
between input and output that holds for lists of fewer than two slots and is
carried through one split-and-merge step holds for every plain list, `sort`
yields a result there, and the result is plain again. -/
theorem sort_induction (ret : α → Option α) (less : α → α → Bool)
    (P : List α → List α → Prop)
    (base : ∀ list, size list < 2 → P list list)
    (step : ∀ list sl sr, ¬ size list < 2 →
      P (list.take (size list / 2)) sl → P (list.drop (size list / 2)) sr →
      P list (List.merge sl sr less)) :
    ∀ list, plain ret list → ∃ r, sort ret list less = some r ∧ plain ret r ∧ P list r := by
  have main : ∀ n (list : List α), size list = n → plain ret list →
      ∃ r, sort ret list less = some r ∧ plain ret r ∧ P list r := by
    intro n
    induction n using Nat.strong_induction_on with
    | _ n ih =>
    intro list hn hp
    by_cases h : size list < 2
    · exact ⟨list, sort_small ret list less h, hp, base list h⟩
    · have hl : size (list.take (size list / 2)) < n := by
        simp only [size, List.length_take] at hn h ⊢
        omega
      have hr : size (list.drop (size list / 2)) < n := by
        simp only [size, List.length_drop] at hn h ⊢
        omega
      obtain ⟨sl, el, ql, pl⟩ := ih _ hl _ rfl (plain_take ret _ hp)
      obtain ⟨sr, er, qr, pr⟩ := ih _ hr _ rfl (plain_drop ret _ hp)
      refine ⟨List.merge sl sr less, ?_, plain_list_merge ret sl sr less ql qr,
        step list sl sr h pl pr⟩
      rw [sort_step ret list less hp h, el, er]
      exact merge_eq_list_merge ret sl sr less ql qr
  exact fun list hp => main _ list rfl hp

/-! ### Facts about merging -/

theorem chain_iff_pairwise (less : α → α → Bool)
    (trans : ∀ x y z, less x y = true → less y z = true → less x z = true) (list : List α) :
    List.Chain' (fun a b => less a b = true) list ↔
      List.Pairwise (fun a b => less a b = true) list := by
  haveI : IsTrans α (fun a b => less a b = true) := ⟨trans⟩
  exact List.chain'_iff_pairwise

theorem list_merge_pairwise (less : α → α → Bool)
    (total : ∀ x y, less x y = true ∨ less y x = true)
    (trans : ∀ x y z, less x y = true → less y z = true → less x z = true)
    (left right : List α)
    (hl : List.Pairwise (fun a b => less a b = true) left)
    (hr : List.Pairwise (fun a b => less a b = true) right) :
    List.Pairwise (fun a b => less a b = true) (List.merge left right less) := by
  refine List.sorted_merge trans ?_ left right hl hr
  intro a b
  rcases total a b with h | h <;> simp [h]

theorem list_merge_cons_pos (less : α → α → Bool) (a b : α) (l r : List α)
    (h : less a b = true) :
    List.merge (a :: l) (b :: r) less = a :: List.merge l (b :: r) less := by
  simp [List.cons_merge_cons, h]

theorem list_merge_cons_neg (less : α → α → Bool) (a b : α) (l r : List α)
    (h : ¬ less a b = true) :
    List.merge (a :: l) (b :: r) less = b :: List.merge (a :: l) r less := by
  simp [List.cons_merge_cons, h]

theorem filter_cons_pos (p : α → Bool) (a : α) (l : List α) (h : p a = true) :
    (a :: l).filter p = a :: l.filter p :=
  List.filter_cons_of_pos h

theorem filter_cons_neg (p : α → Bool) (a : α) (l : List α) (h : ¬ p a = true) :
    (a :: l).filter p = l.filter p :=
  List.filter_cons_of_neg h

/-- Merging keeps each class of mutually `less` markers in the order
"left operand first", provided the left operand is sorted. -/
theorem list_merge_filter_equiv (less : α → α → Bool)
    (trans : ∀ x y z, less x y = true → less y z = true → less x z = true) (c : α)
    (left right : List α)
    (hl : List.Pairwise (fun a b => less a b = true) left) :
    (List.merge left right less).filter (fun x => less c x && less x c) =
      left.filter (fun x => less c x && less x c) ++
        right.filter (fun x => less c x && less x c) := by
  have hp : ∀ x, (fun x => less c x && less x c) x = true →
      less c x = true ∧ less x c = true := by
    intro x hx
    simpa using hx
  generalize (fun x => less c x && less x c) = p at hp
  induction left generalizing right with
  | nil => simp
  | cons a l ihl =>
    induction right with
    | nil => simp
    | cons b r ihr =>
      by_cases h : less a b = true
      · rw [list_merge_cons_pos less a b l r h]
        by_cases ha : p a = true
        · rw [filter_cons_pos p a _ ha, filter_cons_pos p a l ha,
            ihl (b :: r) (List.Pairwise.of_cons hl)]
          rfl
        · rw [filter_cons_neg p a _ ha, filter_cons_neg p a l ha,
            ihl (b :: r) (List.Pairwise.of_cons hl)]
      · rw [list_merge_cons_neg less a b l r h]
        by_cases hb : p b = true
        · have hnone : (a :: l).filter p = [] := by
            rw [List.filter_eq_nil_iff]
            intro z hz hzc
            have hzb : less z b = true := trans z c b (hp z hzc).2 (hp b hb).1
            rcases List.mem_cons.mp hz with rfl | hz2
            · exact h hzb
            · exact h (trans a z b (List.rel_of_pairwise_cons hl hz2) hzb)
          rw [filter_cons_pos p b _ hb, filter_cons_pos p b r hb, ihr, hnone]
          rfl
        · rw [filter_cons_neg p b _ hb, filter_cons_neg p b r hb, ihr]

/-- Taking the left front only when it is strictly less is taking the right
front whenever it is at most the left one: merging with `less` is merging the
exchanged operands with the comparator "not greater". -/
theorem list_merge_flip (less : α → α → Bool) (left right : List α) :
    List.merge left right less = List.merge right left (fun x y => !less y x) := by
  induction left generalizing right with
  | nil => simp
  | cons a l ihl =>
    induction right with
    | nil => simp
    | cons b r ihr =>
      by_cases h : less a b = true
      · rw [list_merge_cons_pos less a b l r h,
          list_merge_cons_neg (fun x y => !less y x) b a r l (by simp [h]), ihl (b :: r)]
      · rw [list_merge_cons_neg less a b l r h,
          list_merge_cons_pos (fun x y => !less y x) b a r l (by simpa using h), ihr]

/-! ### Facts about sorting plain markers -/

theorem pairwise_of_size_lt_two (less : α → α → Bool) (list : List α) (h : size list < 2) :
    List.Pairwise (fun a b => less a b = true) list := by
  match list, h with
  | [], _ => exact List.Pairwise.nil
  | [a], _ => exact List.pairwise_singleton _ a
  | a :: b :: l, h =>
    simp only [size, List.length_cons] at h
    omega

/-- The result of `sort` on plain markers under a total, transitive comparator
is pairwise ordered, a permutation of the input, and keeps each class of
mutually `less` markers in input order. -/
theorem sort_pairwise_stable (ret : α → Option α) (less : α → α → Bool)
    (total : ∀ x y, less x y = true ∨ less y x = true)
    (trans : ∀ x y z, less x y = true → less y z = true → less x z = true)
    (list : List α) (hp : plain ret list) :
    ∃ r, sort ret list less = some r ∧ plain ret r ∧
      List.Pairwise (fun a b => less a b = true) r ∧
      ∀ c, r.filter (fun x => less c x && less x c) =
        list.filter (fun x => less c x && less x c) := by
  refine sort_induction ret less
    (fun l r => List.Pairwise (fun a b => less a b = true) r ∧
      ∀ c, r.filter (fun x => less c x && less x c) =
        l.filter (fun x => less c x && less x c)) ?_ ?_ list hp
  · intro l hl
    exact ⟨pairwise_of_size_lt_two less l hl, fun _ => rfl⟩
  · intro l sl sr _ hsl hsr
    refine ⟨list_merge_pairwise less total trans sl sr hsl.1 hsr.1, ?_⟩
    intro c
    rw [list_merge_filter_equiv less trans c sl sr hsl.1, hsl.2 c, hsr.2 c,
      ← List.filter_append, List.take_append_drop]

theorem sort_perm_of_plain (ret : α → Option α) (less : α → α → Bool) (list : List α)
    (hp : plain ret list) :
    ∃ r, sort ret list less = some r ∧ r.Perm list := by
  obtain ⟨r, hr, _, hperm⟩ := sort_induction ret less (fun l r => r.Perm l)
    (fun l _ => List.Perm.refl l)
    (fun l sl sr _ hsl hsr => by
      have h := (List.merge_perm_append less).trans (List.Perm.append hsl hsr)
      rwa [List.take_append_drop] at h) list hp
  exact ⟨r, hr, hperm⟩

/-- A plain list that is already pairwise ordered is returned unchanged by
`sort`. -/
theorem sort_of_pairwise (ret : α → Option α) (less : α → α → Bool) :
    ∀ list : List α, plain ret list → List.Pairwise (fun a b => less a b = true) list →
      sort ret list less = some list := by
  have main : ∀ n (list : List α), size list = n → plain ret list →
      List.Pairwise (fun a b => less a b = true) list → sort ret list less = some list := by
    intro n
    induction n using Nat.strong_induction_on with
    | _ n ih =>
    intro list hn hpl hp
    by_cases h : size list < 2
    · exact sort_small ret list less h
    · have hl : size (list.take (size list / 2)) < n := by
        simp only [size, List.length_take] at hn h ⊢
        omega
      have hr : size (list.drop (size list / 2)) < n := by
        simp only [size, List.length_drop] at hn h ⊢
        omega
      have hsplit : list.take (size list / 2) ++ list.drop (size list / 2) = list :=
        List.take_append_drop _ _
      have hp2 := hp
      rw [← hsplit, List.pairwise_append] at hp2
      obtain ⟨pl, pr, plr⟩ := hp2
      rw [sort_step ret list less hpl h, ih _ hl _ rfl (plain_take ret _ hpl) pl,
        ih _ hr _ rfl (plain_drop ret _ hpl) pr]
      simp only [Option.some_bind]
      rw [merge_eq_list_merge ret _ _ less (plain_take ret _ hpl) (plain_drop ret _ hpl),
        List.merge_of_le (fun a b ha hb => plr a ha b hb), hsplit]
  exact fun list hpl hp => main _ list rfl hpl hp

/-! ### Sorting with a strict comparator -/

theorem not_greater_total (less : α → α → Bool)
    (irrefl : ∀ x, less x x = false)
    (trans : ∀ x y z, less x y = true → less y z = true → less x z = true) :
    ∀ x y, (!less y x) = true ∨ (!less x y) = true := by
  intro x y
  by_cases h : less y x = true
  · right
    by_cases h2 : less x y = true
    · have h3 := trans x y x h2 h
      rw [irrefl x] at h3
      exact absurd h3 (by simp)
    · simpa using h2
  · left
    simpa using h

theorem not_greater_trans (less : α → α → Bool)
    (trans : ∀ x y z, less x y = true → less y z = true → less x z = true)
    (incomp : ∀ x y z, less x y = false → less y x = false → less y z = false →
      less z y = false → less x z = false ∧ less z x = false) :
    ∀ x y z, (!less y x) = true → (!less z y) = true → (!less z x) = true := by
  intro x y z hxy hyz
  simp only [Bool.not_eq_true'] at hxy hyz ⊢
  by_contra hzx
  have hzx2 : less z x = true := by simpa using hzx
  by_cases h1 : less x y = true
  · have h2 := trans z x y hzx2 h1
    rw [hyz] at h2
    exact absurd h2 (by simp)
  · by_cases h3 : less y z = true
    · have h4 := trans y z x h3 hzx2
      rw [hxy] at h4
      exact absurd h4 (by simp)
    · have h5 := incomp x y z (by simpa using h1) hxy (by simpa using h3) hyz
      rw [h5.2] at hzx2
      exact absurd hzx2 (by simp)

theorem filter_reverse_small (p : α → Bool) (l : List α) (h : size l < 2) :
    l.filter p = (l.filter p).reverse := by
  match l, h with
  | [], _ => rfl
  | [a], _ =>
    by_cases hp : p a = true
    · rw [filter_cons_pos p a [] hp]
      rfl
    · rw [filter_cons_neg p a [] hp]
      rfl
  | a :: b :: l2, h =>
    simp only [size, List.length_cons] at h
    omega

/-- A list sorted by a total, transitive comparator is determined by the
order of the slots inside each class of equivalent markers. -/
theorem sorted_unique (le : α → α → Bool)
    (total : ∀ x y, le x y = true ∨ le y x = true) :
    ∀ s t : List α, List.Pairwise (fun a b => le a b = true) s →
      List.Pairwise (fun a b => le a b = true) t →
      (∀ c, s.filter (fun x => le c x && le x c) = t.filter (fun x => le c x && le x c)) →
      s = t := by
  have refl : ∀ x, le x x = true := by
    intro x
    rcases total x x with h | h <;> exact h
  have self_mem : ∀ (x : α) (l : List α), x ∈ l → x ∈ l.filter (fun z => le x z && le z x) := by
    intro x l hx
    rw [List.mem_filter]
    exact ⟨hx, by simp [refl x]⟩
  intro s
  induction s with
  | nil =>
    intro t _ _ hf
    cases t with
    | nil => rfl
    | cons y t2 =>
      have h1 := self_mem y (y :: t2) (List.mem_cons_self y t2)
      rw [← hf y] at h1
      simp at h1
  | cons x s1 ih =>
    intro t hs ht hf
    cases t with
    | nil =>
      have h1 := self_mem x (x :: s1) (List.mem_cons_self x s1)
      rw [hf x] at h1
      simp at h1
    | cons y t2 =>
      have hy_in : y ∈ x :: s1 := by
        have h1 := self_mem y (y :: t2) (List.mem_cons_self y t2)
        rw [← hf y] at h1
        exact List.mem_of_mem_filter h1
      have hx_in : x ∈ y :: t2 := by
        have h1 := self_mem x (x :: s1) (List.mem_cons_self x s1)
        rw [hf x] at h1
        exact List.mem_of_mem_filter h1
      have hxy : le x y = true := by
        rcases List.mem_cons.mp hy_in with h | h
        · rw [h]
          exact refl x
        · exact List.rel_of_pairwise_cons hs h
      have hyx : le y x = true := by
        rcases List.mem_cons.mp hx_in with h | h
        · rw [h]
          exact refl y
        · exact List.rel_of_pairwise_cons ht h
      have hpx : (fun z => le x z && le z x) x = true := by simp [refl x]
      have hpy : (fun z => le x z && le z x) y = true := by simp [hxy, hyx]
      have hhead := hf x
      rw [filter_cons_pos _ x s1 hpx, filter_cons_pos _ y t2 hpy] at hhead
      have hxy_eq : x = y := (List.cons.inj hhead).1
      subst hxy_eq
      have htail : ∀ c, s1.filter (fun z => le c z && le z c) =
          t2.filter (fun z => le c z && le z c) := by
        intro c
        have hc := hf c
        by_cases hp : (fun z => le c z && le z c) x = true
        · rw [filter_cons_pos _ x s1 hp, filter_cons_pos _ x t2 hp] at hc
          exact (List.cons.inj hc).2
        · rw [filter_cons_neg _ x s1 hp, filter_cons_neg _ x t2 hp] at hc
          exact hc
      rw [ih t2 (List.Pairwise.of_cons hs) (List.Pairwise.of_cons ht) htail]

/-- With a strict weak order as comparator, `sort` on plain markers yields a
list without inversions in which every class of incomparable markers is in the
reverse of its input order. -/
theorem sort_strict_reversed (ret : α → Option α) (less : α → α → Bool)
    (irrefl : ∀ x, less x x = false)
    (trans : ∀ x y z, less x y = true → less y z = true → less x z = true)
    (incomp : ∀ x y z, less x y = false → less y x = false → less y z = false →
      less z y = false → less x z = false ∧ less z x = false)
    (list : List α) (hp : plain ret list) :
    ∃ r, sort ret list less = some r ∧ plain ret r ∧
      List.Pairwise (fun a b => (!less b a) = true) r ∧
      ∀ c, r.filter (fun x => !less x c && !less c x) =
        (list.filter (fun x => !less x c && !less c x)).reverse := by
  refine sort_induction ret less
    (fun l r => List.Pairwise (fun a b => (!less b a) = true) r ∧
      ∀ c, r.filter (fun x => !less x c && !less c x) =
        (l.filter (fun x => !less x c && !less c x)).reverse) ?_ ?_ list hp
  · intro l hl
    exact ⟨pairwise_of_size_lt_two (fun a b => !less b a) l hl,
      fun c => filter_reverse_small _ l hl⟩
  · intro l sl sr _ hsl hsr
    rw [list_merge_flip]
    refine ⟨list_merge_pairwise (fun x y => !less y x) (not_greater_total less irrefl trans)
      (not_greater_trans less trans incomp) sr sl hsr.1 hsl.1, ?_⟩
    intro c
    rw [list_merge_filter_equiv (fun x y => !less y x) (not_greater_trans less trans incomp)
      c sr sl hsr.1, hsr.2 c, hsl.2 c, ← List.reverse_append, ← List.filter_append,
      List.take_append_drop]

/-! ### Shapes of the structural modifiers on plain markers -/

theorem reverse_eq (ret : α → Option α) (list : List α) (h : plain ret list) :
    reverse ret list = some list.reverse := by
  induction list with
  | nil => rfl
  | cons t types ih =>
    rw [plain_cons] at h
    simp [reverse, ih h.2, op_star_cons ret t types h.1, concat]

theorem insert_index_eq (ret : α → Option α) (index : Nat) (type : α) (list : List α)
    (h : plain ret list) :
    insert_index ret index type list =
      if index ≤ size list then some (list.take index ++ type :: list.drop index)
      else none := by
  induction index generalizing list with
  | zero => simp [insert_index, push_front]
  | succ n ih =>
    cases list with
    | nil => simp [insert_index, size]
    | cons t types =>
      rw [plain_cons] at h
      simp only [insert_index, ih types h.2, op_star_cons ret t types h.1, size,
        List.length_cons, Nat.add_le_add_iff_right, List.take_succ_cons, List.drop_succ_cons,
        Option.some_bind]
      by_cases hn : n ≤ types.length
      · simp [hn, concat]
      · simp [hn]

theorem remove_index_eq (ret : α → Option α) (index : Nat) (list : List α)
    (h : plain ret list) :
    remove_index ret index list =
      if index < size list then some (list.take index ++ list.drop (index + 1))
      else none := by
  induction index generalizing list with
  | zero =>
    cases list with
    | nil => simp [remove_index, size]
    | cons t types => simp [remove_index, op_pre_decrement, pop_front, size]
  | succ n ih =>
    cases list with
    | nil => simp [remove_index, size]
    | cons t types =>
      rw [plain_cons] at h
      simp only [remove_index, ih types h.2, op_star_cons ret t types h.1, size,
        List.length_cons, Nat.add_lt_add_iff_right, List.take_succ_cons, List.drop_succ_cons,
        Option.some_bind]
      by_cases hn : n < types.length
      · simp [hn, concat]
      · simp [hn]

theorem remove_eq_filter (ret : α → Option α) (list : List α) (f : α → Bool)
    (h : plain ret list) :
    remove ret list f = some (list.filter (fun x => !f x)) := by
  induction list with
  | nil => rfl
  | cons t types ih =>
    rw [plain_cons] at h
    by_cases hf : f t = true
    · simp [remove, front_cons ret t types h.1, hf, ih h.2]
    · simp [remove, front_cons ret t types h.1, op_star_cons ret t types h.1, hf, ih h.2,
        concat]

theorem insert_eq (ret : α → Option α) (type : α) (list : List α) (less : α → α → Bool)
    (h : plain ret list) :
    insert ret type list less =
      some (list.takeWhile (fun x => !less type x) ++
        type :: list.dropWhile (fun x => !less type x)) := by
  induction list with
  | nil => rfl
  | cons t types ih =>
    rw [plain_cons] at h
    by_cases hl : less type t = true
    · simp [insert, front_cons ret t types h.1, hl, push_front, List.takeWhile_cons,
        List.dropWhile_cons]
    · simp [insert, front_cons ret t types h.1, op_star_cons ret t types h.1, hl, ih h.2,
        concat, List.takeWhile_cons, List.dropWhile_cons]

theorem insert_shape_perm (type : α) (list : List α) (p : α → Bool) :
    (list.takeWhile p ++ type :: list.dropWhile p).Perm (type :: list) := by
  have h : (list.takeWhile p ++ type :: list.dropWhile p).Perm
      (type :: (list.takeWhile p ++ list.dropWhile p)) := List.perm_middle
  rwa [List.takeWhile_append_dropWhile] at h

theorem insert_shape_pairwise (type : α) (list : List α) (less : α → α → Bool)
    (total : ∀ x y, less x y = true ∨ less y x = true)
    (trans : ∀ x y z, less x y = true → less y z = true → less x z = true)
    (hs : List.Pairwise (fun a b => less a b = true) list) :
    List.Pairwise (fun a b => less a b = true)
      (list.takeWhile (fun x => !less type x) ++
        type :: list.dropWhile (fun x => !less type x)) := by
  induction list with
  | nil => exact List.pairwise_singleton _ type
  | cons t types ih =>
    by_cases h : less type t = true
    · have e1 : (t :: types).takeWhile (fun x => !less type x) = [] := by
        simp [List.takeWhile_cons, h]
      have e2 : (t :: types).dropWhile (fun x => !less type x) = t :: types := by
        simp [List.dropWhile_cons, h]
      rw [e1, e2]
      refine List.Pairwise.cons ?_ hs
      intro z hz
      rcases List.mem_cons.mp hz with rfl | hz2
      · exact h
      · exact trans type t z h (List.rel_of_pairwise_cons hs hz2)
    · have e1 : (t :: types).takeWhile (fun x => !less type x) =
          t :: types.takeWhile (fun x => !less type x) := by
        simp [List.takeWhile_cons, h]
      have e2 : (t :: types).dropWhile (fun x => !less type x) =
          types.dropWhile (fun x => !less type x) := by
        simp [List.dropWhile_cons, h]
      rw [e1, e2]
      refine List.Pairwise.cons ?_ (ih (List.Pairwise.of_cons hs))
      intro z hz
      have hz2 : z ∈ type :: types := (insert_shape_perm type types _).mem_iff.mp hz
      rcases List.mem_cons.mp hz2 with rfl | hz3
      · rcases total z t with h2 | h2
        · exact absurd h2 h
        · exact h2
      · exact List.rel_of_pairwise_cons hs hz3

theorem exists_eq_any (list : List α) (f : α → Bool) : exists_ list f = list.any f := by
  induction list with
  | nil => rfl
  | cons t types ih =>
    cases types with
    | nil => simp [exists_]
    | cons u types => simp only [exists_, ih, List.any_cons]

theorem for_all_eq_all (list : List α) (f : α → Bool) : for_all list f = list.all f := by
  induction list with
  | nil => rfl
  | cons t types ih =>
    cases types with
    | nil => simp [for_all]
    | cons u types => simp only [for_all, ih, List.all_cons]

theorem transform_eq (list : List α) (f : α → List β) (h : list ≠ []) :
    transform list f = some (list.map f).flatten := by
  induction list with
  | nil => exact absurd rfl h
  | cons t types ih =>
    cases types with
    | nil => simp [transform]
    | cons u types =>
      simp [transform, ih (List.cons_ne_nil u types), concat]

theorem getElem_opt_append_cons_length (X Y : List α) (y : α) :
    (X ++ y :: Y)[X.length]? = some y := by
  rw [List.getElem?_append_right (le_refl _)]
  simp

theorem getElem_opt_append_cons_ne (X Y : List α) (x y : α) (k : Nat) (h : k ≠ X.length) :
    (X ++ x :: Y)[k]? = (X ++ y :: Y)[k]? := by
  induction X generalizing k with
  | nil =>
    cases k with
    | zero => exact absurd rfl h
    | succ k => rfl
  | cons t X ih =>
    cases k with
    | zero => simp
    | succ k =>
      simp only [List.cons_append, List.getElem?_cons_succ]
      exact ih k (fun hk => h (by simp [hk]))

theorem take_length_append (X Y : List α) : (X ++ Y).take X.length = X := by
  simp

theorem drop_succ_length_append_cons (X Y : List α) (y : α) :
    (X ++ y :: Y).drop (X.length + 1) = Y := by
  rw [List.drop_append_eq_append_drop]
  simp

/-- The second overload of `swap`, on a plain list cut at the two positions. -/
theorem swap_append (ret : α → Option α) (A C E : List α) (a b : α)
    (hp : plain ret (A ++ a :: (C ++ b :: E))) :
    swap ret A.length (A.length + C.length + 1) (A ++ a :: (C ++ b :: E)) =
      some (A ++ b :: (C ++ a :: E)) := by
  have hne : ¬ A.length = A.length + C.length + 1 := by omega
  have hlt : A.length < A.length + C.length + 1 := by omega
  have hL : A ++ a :: (C ++ b :: E) = (A ++ a :: C) ++ b :: E := by simp
  have hP : (A ++ a :: C).length = A.length + C.length + 1 := by
    simp only [List.length_append, List.length_cons]
    omega
  have hsz : size (A ++ a :: (C ++ b :: E)) = A.length + C.length + E.length + 2 := by
    simp only [size, List.length_append, List.length_cons]
    omega
  have hj : A.length + C.length + 1 < size (A ++ a :: (C ++ b :: E)) := by omega
  have e1 : range ret 0 A.length (A ++ a :: (C ++ b :: E)) = some A := by
    rw [range_eq ret _ _ _ hp, if_pos ⟨Nat.zero_le _, by omega⟩, take_length_append]
    rfl
  have e2 : slice ret (A.length + C.length + 1) (A ++ a :: (C ++ b :: E)) = some [b] := by
    rw [slice, element_eq ret _ _ hp, hL, ← hP, getElem_opt_append_cons_length]
    rfl
  have e3 : range ret (A.length + 1) (A.length + C.length + 1) (A ++ a :: (C ++ b :: E)) =
      some C := by
    rw [range_eq ret _ _ _ hp, if_pos ⟨by omega, by omega⟩, hL, ← hP, take_length_append,
      drop_succ_length_append_cons]
  have e4 : slice ret A.length (A ++ a :: (C ++ b :: E)) = some [a] := by
    rw [slice, element_eq ret _ _ hp, getElem_opt_append_cons_length]
    rfl
  have e5 : range ret (A.length + C.length + 1 + 1) (size (A ++ a :: (C ++ b :: E)))
      (A ++ a :: (C ++ b :: E)) = some E := by
    rw [range_eq ret _ _ _ hp, if_pos ⟨by omega, le_refl _⟩, size, List.take_length, hL, ← hP,
      drop_succ_length_append_cons]
  unfold swap
  rw [if_neg hne, if_pos hlt, if_pos hj, e1, e2, e3, e4, e5]
  simp [concat]

/-- A list cut at two positions `i < j`. -/
theorem cut_at_two (list : List α) (i j : Nat) (hij : i < j) (hj : j < size list) :
    ∃ A C E a b, list = A ++ a :: (C ++ b :: E) ∧ A.length = i ∧
      A.length + C.length + 1 = j := by
  simp only [size] at hj
  have hi : i < list.length := by omega
  have h1 : list = list.take i ++ list[i] :: list.drop (i + 1) := by
    rw [← List.drop_eq_getElem_cons hi, List.take_append_drop]
  have hj2 : j - i - 1 < (list.drop (i + 1)).length := by
    rw [List.length_drop]
    omega
  have h2 : list.drop (i + 1) = (list.drop (i + 1)).take (j - i - 1) ++
      (list.drop (i + 1))[j - i - 1] :: (list.drop (i + 1)).drop (j - i - 1 + 1) := by
    rw [← List.drop_eq_getElem_cons hj2, List.take_append_drop]
  refine ⟨list.take i, (list.drop (i + 1)).take (j - i - 1),
    (list.drop (i + 1)).drop (j - i - 1 + 1), list[i], (list.drop (i + 1))[j - i - 1], ?_, ?_, ?_⟩
  · rw [← h2]
    exact h1
  · rw [List.length_take]
    omega
  · rw [List.length_take, List.length_take, List.length_drop]
    omega

/-- The third overload of `swap` is the second with the indices exchanged. -/
theorem swap_comm (ret : α → Option α) (i j : Nat) (list : List α) :
    swap ret i j list = swap ret j i list := by
  rcases Nat.lt_trichotomy i j with h | h | h
  · have h1 : ¬ i = j := by omega
    have h2 : ¬ j = i := by omega
    have h3 : ¬ j < i := by omega
    simp only [swap, h1, h2, h3, h, if_true, if_false]
  · subst h
    rfl
  · have h1 : ¬ i = j := by omega
    have h2 : ¬ j = i := by omega
    have h3 : ¬ i < j := by omega
    simp only [swap, h1, h2, h3, h, if_true, if_false]

/-- What `swap` does on a plain list for `i < j < size(list)`: the two slots
are exchanged, every other slot stays, and swapping again restores the
list. -/
theorem swap_lt (ret : α → Option α) (list : List α) (hp : plain ret list) (i j : Nat)
    (hij : i < j) (hj : j < size list) :
    ∃ r, swap ret i j list = some r ∧ swap ret i j r = some list ∧ plain ret r ∧
      size r = size list ∧ r[i]? = list[j]? ∧ r[j]? = list[i]? ∧
      ∀ k, k ≠ i → k ≠ j → r[k]? = list[k]? := by
  obtain ⟨A, C, E, a, b, hl, hA, hC⟩ := cut_at_two list i j hij hj
  subst hl hA hC
  have hL : ∀ x y : α, A ++ x :: (C ++ y :: E) = (A ++ x :: C) ++ y :: E := by
    intro x y
    simp
  have hP : ∀ x : α, (A ++ x :: C).length = A.length + C.length + 1 := by
    intro x
    simp only [List.length_append, List.length_cons]
    omega
  have hp2 : plain ret (A ++ b :: (C ++ a :: E)) := by
    refine plain_of_subset ret ?_ hp
    intro x hx
    simp only [List.mem_append, List.mem_cons] at hx ⊢
    tauto
  refine ⟨A ++ b :: (C ++ a :: E), swap_append ret A C E a b hp,
    swap_append ret A C E b a hp2, hp2, ?_, ?_, ?_, ?_⟩
  · simp [size]
  · rw [getElem_opt_append_cons_length, hL a b, ← hP a, getElem_opt_append_cons_length]
  · rw [getElem_opt_append_cons_length, hL b a, ← hP b, getElem_opt_append_cons_length]
  · intro k hki hkj
    rw [getElem_opt_append_cons_ne A _ b a k hki, hL a a, hL a b]
    exact getElem_opt_append_cons_ne (A ++ a :: C) E a b k (by rw [hP a]; exact hkj)

theorem swap_exchange (ret : α → Option α) (list : List α) (hp : plain ret list)
    (i j : Nat) (hi : i < size list) (hj : j < size list) :
    ∃ r, swap ret i j list = some r ∧ swap ret i j r = some list ∧ plain ret r ∧
      size r = size list ∧ r[i]? = list[j]? ∧ r[j]? = list[i]? ∧
      ∀ k, k ≠ i → k ≠ j → r[k]? = list[k]? := by
  rcases Nat.lt_trichotomy i j with h | h | h
  · exact swap_lt ret list hp i j h hj
  · subst h
    have hs : swap ret i i list = some list := by simp [swap, hi]
    exact ⟨list, hs, hs, hp, rfl, rfl, rfl, fun _ _ _ => rfl⟩
  · obtain ⟨r, h1, h2, h3, h4, h5, h6, h7⟩ := swap_lt ret list hp j i h hi
    refine ⟨r, ?_, ?_, h3, h4, h6, h5, fun k hki hkj => h7 k hkj hki⟩
    · rw [swap_comm]
      exact h1
    · rw [swap_comm]
      exact h2

/-! ### The comparators of the examples -/

theorem test_less_total : ∀ x y, test_less x y = true ∨ test_less y x = true := by
  intro x y
  simp only [test_less, decide_eq_true_eq]
  exact Nat.le_total _ _

theorem test_less_trans :
    ∀ x y z, test_less x y = true → test_less y z = true → test_less x z = true := by
  intro x y z
  simp only [test_less, decide_eq_true_eq]
  exact Nat.le_trans

theorem rank_less_total : ∀ x y, rank_less x y = true ∨ rank_less y x = true := by
  intro x y
  simp only [rank_less, decide_eq_true_eq]
  exact Nat.le_total _ _

theorem rank_less_trans :
    ∀ x y z, rank_less x y = true → rank_less y z = true → rank_less x z = true := by
  intro x y z
  simp only [rank_less, decide_eq_true_eq]
  exact Nat.le_trans

theorem test_greater_irrefl : ∀ x, test_greater x x = false := by
  intro x
  simp [test_greater]

theorem test_greater_trans :
    ∀ x y z, test_greater x y = true → test_greater y z = true → test_greater x z = true := by
  intro x y z
  simp only [test_greater, decide_eq_true_eq]
  omega

theorem test_greater_incomp :
    ∀ x y z, test_greater x y = false → test_greater y x = false →
      test_greater y z = false → test_greater z y = false →
      test_greater x z = false ∧ test_greater z x = false := by
  intro x y z
  simp only [test_greater, decide_eq_false_iff_not]
  omega

theorem pop_back_push_back (ret : α → Option α) (type : α) (list : List α)
    (h : plain ret list) : pop_back ret (list ++ [type]) = some list := by
  induction list with
  | nil => rfl
  | cons t types ih =>
    rw [plain_cons] at h
    cases types with
    | nil => simp [pop_back, op_star_cons ret t [type] h.1, concat]
    | cons u rest =>
      have ih2 := ih h.2
      simp only [List.cons_append] at ih2 ⊢
      simp [pop_back, op_star_cons ret t _ h.1, ih2, concat]

theorem element_of_getElem (ret : α → Option α) :
    ∀ (k : Nat) (list : List α) (x : α), list[k]? = some x → ret x = some x →
      element ret k list = some x := by
  intro k
  induction k with
  | zero =>
    intro list x h hx
    cases list with
    | nil => simp at h
    | cons t types =>
      simp only [List.getElem?_cons_zero, Option.some.injEq] at h
      subst h
      simp [element, hx]
  | succ n ih =>
    intro list x h hx
    cases list with
    | nil => simp at h
    | cons t types =>
      rw [List.getElem?_cons_succ] at h
      have hn : n < types.length := by
        by_contra hc
        rw [List.getElem?_eq_none (Nat.le_of_not_lt hc)] at h
        simp at h
      have hsz : n + 1 < size (t :: types) := by
        simp only [size, List.length_cons]
        omega
      simp only [element, hsz, if_true, ih types x h hx, Option.some_bind, hx]

theorem element_none_of_getElem (ret : α → Option α) :
    ∀ (k : Nat) (list : List α), list[k]? = none → element ret k list = none := by
  intro k
  induction k with
  | zero =>
    intro list h
    cases list with
    | nil => rfl
    | cons t types => simp at h
  | succ n ih =>
    intro list h
    cases list with
    | nil => rfl
    | cons t types =>
      rw [List.getElem?_cons_succ] at h
      simp only [element, ih types h, Option.none_bind, ite_self]

/-- On two lists that hold the same plain marker, or both nothing, at the two
positions, `element` agrees. -/
theorem element_agree (ret : α → Option α) (k m : Nat) (l1 l2 : List α)
    (hp : plain ret l2) (h : l1[k]? = l2[m]?) :
    element ret k l1 = element ret m l2 := by
  cases hx : l2[m]? with
  | none =>
    rw [hx] at h
    rw [element_none_of_getElem ret k l1 h, element_none_of_getElem ret m l2 hx]
  | some x =>
    rw [hx] at h
    have hmem : x ∈ l2 := List.getElem?_mem hx
    rw [element_of_getElem ret k l1 x h (hp x hmem),
      element_of_getElem ret m l2 x hx (hp x hmem)]

theorem remove_index_insert (ret : α → Option α) (type : α) :
    ∀ (index : Nat) (list : List α), plain ret list → index ≤ size list →
      remove_index ret index (list.take index ++ type :: list.drop index) = some list := by
  intro index
  induction index with
  | zero =>
    intro list _ _
    simp [remove_index, op_pre_decrement, pop_front]
  | succ n ih =>
    intro list hp hn
    cases list with
    | nil => simp [size] at hn
    | cons t types =>
      rw [plain_cons] at hp
      have hn2 : n ≤ size types := by
        simp only [size, List.length_cons] at hn ⊢
        omega
      have hlen : n + 1 < size (t :: (types.take n ++ type :: types.drop n)) := by
        simp only [size, List.length_cons, List.length_append, List.length_take,
          List.length_drop] at hn2 ⊢
        omega
      have e : (t :: types).take (n + 1) ++ type :: (t :: types).drop (n + 1) =
          t :: (types.take n ++ type :: types.drop n) := rfl
      rw [e, remove_index, if_pos hlen, op_star_cons ret t _ hp.1, ih types hp.2 hn2]
      rfl

/-! ### Assertions of `tests/basics/type_list.cpp`, replayed on the embedding -/

/-- The types the tests use are plain: a call to a function declared to return
one of them has exactly that type.  So is a `const` class type. -/
theorem plain_test_types :
    plain Marker.ret [Marker.char, Marker.short, Marker.int, Marker.unsigned, Marker.float,
      Marker.double, Marker.void, Marker.type_list [Marker.int, Marker.char],
      Marker.cv_const (Marker.type_list [])] := by
  intro x hx
  simp only [List.mem_cons, List.mem_singleton, List.not_mem_nil, or_false] at hx
  rcases hx with h | h | h | h | h | h | h | h | h <;> subst h <;> rfl

theorem test_element_2 :
    element Marker.ret 2 [Marker.double, Marker.int, Marker.char] = some Marker.char := by
  simp [element, size, Marker.ret]

theorem test_back :
    back Marker.ret [Marker.double, Marker.char, Marker.int] = some Marker.int := by
  simp [back, empty, element, size, Marker.ret]

theorem test_pop_back :
    pop_back Marker.ret [Marker.float, Marker.char, Marker.int] =
      some [Marker.float, Marker.char] := by
  simp [pop_back, op_star, front_slice, front, empty, element, size, concat, Marker.ret]

theorem test_reverse :
    reverse Marker.ret [Marker.char, Marker.int, Marker.float] =
      some [Marker.float, Marker.int, Marker.char] := by
  simp [reverse, op_star, front_slice, front, empty, element, size, concat, Marker.ret]

theorem test_insert_index_1 :
    insert_index Marker.ret 1 Marker.float [Marker.int, Marker.char] =
      some [Marker.int, Marker.float, Marker.char] := by
  simp [insert_index, op_star, front_slice, front, empty, element, size, push_front, concat,
    Marker.ret]

theorem test_insert_unsigned :
    insert Marker.ret Marker.unsigned [Marker.char, Marker.int] test_less =
      some [Marker.char, Marker.unsigned, Marker.int] := by
  simp [insert, op_star, front_slice, front, empty, element, size, test_less, Marker.sizeof,
    push_front, concat, Marker.ret]

theorem test_insert_double :
    insert Marker.ret Marker.double [Marker.char, Marker.int] test_less =
      some [Marker.char, Marker.int, Marker.double] := by
  simp [insert, op_star, front_slice, front, empty, element, size, test_less, Marker.sizeof,
    push_front, concat, Marker.ret]

theorem test_remove_index_1 :
    remove_index Marker.ret 1 [Marker.float, Marker.int, Marker.char] =
      some [Marker.float, Marker.char] := by
  simp [remove_index, op_star, op_pre_decrement, front_slice, front, empty, element, size,
    concat, pop_front, Marker.ret]

theorem test_remove_too_big :
    remove Marker.ret [Marker.int, Marker.unsigned, Marker.char, Marker.short]
        (fun x => decide (x.sizeof > 2)) =
      some [Marker.char, Marker.short] := by
  simp [remove, op_star, front_slice, front, empty, element, size, Marker.sizeof, concat,
    Marker.ret]

theorem test_trim_front_2 :
    trim_front 2 [Marker.int, Marker.char, Marker.float] = some [Marker.float] := by
  simp [trim_front, pop_front, size]

theorem test_trim_back_2 :
    trim_back Marker.ret 2 [Marker.int, Marker.char, Marker.float] = some [Marker.int] := by
  simp [trim_back, pop_back, op_star, front_slice, front, empty, element, size, concat,
    Marker.ret]

theorem test_range_1_3 :
    range Marker.ret 1 3 [Marker.int, Marker.char, Marker.float] =
      some [Marker.char, Marker.float] := by
  simp [range, trim_back, trim_front, pop_front, size]

theorem test_swap_2_0 :
    swap Marker.ret 2 0 [Marker.int, Marker.char, Marker.float] =
      some [Marker.float, Marker.char, Marker.int] := by
  simp [swap, range, slice, trim_back, trim_front, pop_front, pop_back, op_star, front_slice,
    front, empty, element, size, concat, Marker.ret]

theorem test_swap_1_2 :
    swap Marker.ret 1 2 [Marker.int, Marker.char, Marker.float] =
      some [Marker.int, Marker.float, Marker.char] := by
  simp [swap, range, slice, trim_back, trim_front, pop_front, pop_back, op_star, front_slice,
    front, empty, element, size, concat, Marker.ret]

theorem test_merge_short_int_char_double :
    merge Marker.ret [Marker.short, Marker.int] [Marker.char, Marker.double] test_less =
      some [Marker.char, Marker.short, Marker.int, Marker.double] := by
  simp [merge, front, empty, element, size, test_less, Marker.sizeof, push_front, concat,
    Marker.ret]

theorem test_sort_int_short_char :
    sort Marker.ret [Marker.int, Marker.short, Marker.char] test_less =
      some [Marker.char, Marker.short, Marker.int] := by
  simp [sort, range, trim_front, trim_back, pop_front, pop_back, op_star, front_slice, merge,
    front, empty, element, size, concat, push_front, test_less, Marker.sizeof, Marker.ret]

theorem test_sort_descending_stable :
    sort Marker.ret [Marker.short, Marker.unsigned, Marker.char, Marker.int]
        (fun x y => decide (x.sizeof ≥ y.sizeof)) =
      some [Marker.unsigned, Marker.int, Marker.short, Marker.char] := by
  simp [sort, range, trim_front, trim_back, pop_front, pop_back, op_star, front_slice, merge,
    front, empty, element, size, concat, push_front, Marker.sizeof, Marker.ret]

theorem test_sort_descending_strict :
    sort Marker.ret [Marker.short, Marker.unsigned, Marker.char, Marker.int] test_greater =
      some [Marker.int, Marker.unsigned, Marker.short, Marker.char] := by
  simp [sort, range, trim_front, trim_back, pop_front, pop_back, op_star, front_slice, merge,
    front, empty, element, size, concat, push_front, test_greater, Marker.sizeof, Marker.ret]

theorem test_transform :
    transform [Marker.float, Marker.void, Marker.int] test_transform_f =
      some [Marker.float, Marker.type_list [], Marker.int] := rfl

theorem test_for_all_alignment :
    for_all [Marker.float, Marker.char] (fun x => decide (x.sizeof ≥ 4)) = false := by
  simp [for_all, Marker.sizeof]

theorem test_exists_alignment :
    exists_ [Marker.char, Marker.float] (fun x => decide (x.sizeof ≥ 4)) = true := by
  simp [exists_, Marker.sizeof]

/-! ### The claims

`element` is declared `-> type` and read through `decltype`, so the header
does not hand markers back as they are: `const int` comes back as `int`, and
an array marker leaves no viable overload.  Each statement below about an
operation that reads a slot through `element` first evaluates the operation at
such a marker, where it departs from the claim, and then proves the claim for
every list of plain markers.  The statements about `transform`, `concat`,
`for_all` and `exists`, which expand the pack directly, hold for all markers. -/

/-- C1: `sort` and sortedness.  At `type_list<int[3], char>` the call to
`sort` is rejected.  At `type_list<char, const int>` with a total, transitive
comparator that ranks `const int` before `char` before `int`, `sort` returns
the list unchanged although its adjacent pair does not satisfy `less`: the
comparator was applied to `char` and `int`.  For every list of plain markers
and every total, transitive comparator, `sort` yields a result in which every
adjacent pair `(a, b)` satisfies `less(a, b)`. -/
theorem sort_sorted :
    sort Marker.ret [Marker.array Marker.int 3, Marker.char] test_less = none ∧
    (sort Marker.ret [Marker.char, Marker.cv_const Marker.int] rank_less =
        some [Marker.char, Marker.cv_const Marker.int] ∧
      rank_less Marker.char (Marker.cv_const Marker.int) = false ∧
      (∀ x y, rank_less x y = true ∨ rank_less y x = true) ∧
      (∀ x y z, rank_less x y = true → rank_less y z = true → rank_less x z = true)) ∧
    ∀ (α : Type) (ret : α → Option α) (list : List α) (less : α → α → Bool),
      plain ret list →
      (∀ x y, less x y = true ∨ less y x = true) →
      (∀ x y z, less x y = true → less y z = true → less x z = true) →
      ∃ r, sort ret list less = some r ∧ List.Chain' (fun a b => less a b = true) r := by
  refine ⟨?_, ⟨?_, ?_, rank_less_total, rank_less_trans⟩, ?_⟩
  · simp [sort, range, trim_front, trim_back, pop_front, pop_back, op_star, front_slice,
      front, empty, element, size, Marker.ret]
  · simp [sort, range, trim_front, trim_back, pop_front, pop_back, op_star, front_slice,
      merge, front, empty, element, size, concat, push_front, rank_less, Marker.rank,
      Marker.ret]
  · simp [rank_less, Marker.rank]
  · intro α ret list less hp total trans
    obtain ⟨r, hr, _, hpw, _⟩ := sort_pairwise_stable ret less total trans list hp
    exact ⟨r, hr, (chain_iff_pairwise less trans r).mpr hpw⟩

/-- C3: idempotence of `sort`.  At `type_list<int[3], char>` the call to
`sort` is rejected, so there is no result to sort again.  For every list of
plain markers and every total, transitive comparator, `sort` yields a result
`r`, and sorting `r` again yields `r`. -/
theorem sort_idempotent :
    sort Marker.ret [Marker.array Marker.int 3, Marker.char] test_less = none ∧
    ∀ (α : Type) (ret : α → Option α) (list : List α) (less : α → α → Bool),
      plain ret list →
      (∀ x y, less x y = true ∨ less y x = true) →
      (∀ x y z, less x y = true → less y z = true → less x z = true) →
      ∃ r, sort ret list less = some r ∧ sort ret r less = some r := by
  refine ⟨?_, ?_⟩
  · simp [sort, range, trim_front, trim_back, pop_front, pop_back, op_star, front_slice,
      front, empty, element, size, Marker.ret]
  · intro α ret list less hp total trans
    obtain ⟨r, hr, hpr, hpw, _⟩ := sort_pairwise_stable ret less total trans list hp
    exact ⟨r, hr, sort_of_pairwise ret less r hpr hpw⟩

/-- C4: `sort` and permutations.  At `type_list<const int, char>` with
`sizeof(x) <= sizeof(y)`, `sort` returns `type_list<char, int>`, which is not
a permutation of the input; at `type_list<int[3], char>` the call is rejected.
For every list of plain markers and every comparator whatsoever, `sort` yields
a permutation of the input: every marker occurs as often as in the input, and
the size is the same. -/
theorem sort_perm :
    (sort Marker.ret [Marker.cv_const Marker.int, Marker.char] test_less =
        some [Marker.char, Marker.int] ∧
      ¬ List.Perm [Marker.char, Marker.int] [Marker.cv_const Marker.int, Marker.char]) ∧
    sort Marker.ret [Marker.array Marker.int 3, Marker.char] test_less = none ∧
    ∀ (α : Type) [DecidableEq α] (ret : α → Option α) (list : List α)
      (less : α → α → Bool),
      plain ret list →
      ∃ r, sort ret list less = some r ∧ r.Perm list ∧
        (∀ x, r.count x = list.count x) ∧ size r = size list := by
  refine ⟨⟨?_, ?_⟩, ?_, ?_⟩
  · simp [sort, range, trim_front, trim_back, pop_front, pop_back, op_star, front_slice,
      merge, front, empty, element, size, concat, push_front, test_less, Marker.sizeof,
      Marker.ret]
  · intro h
    have hm := h.mem_iff.mp (List.mem_cons_of_mem Marker.char (List.mem_singleton_self Marker.int))
    simp at hm
  · simp [sort, range, trim_front, trim_back, pop_front, pop_back, op_star, front_slice,
      front, empty, element, size, Marker.ret]
  · intro α _ ret list less hp
    obtain ⟨r, hr, hperm⟩ := sort_perm_of_plain ret less list hp
    exact ⟨r, hr, hperm, fun x => hperm.count_eq x, hperm.length_eq⟩

/-- C5: `merge` of sorted operands.  At `type_list<const char>` and
`type_list<int>` with `sizeof(x) <= sizeof(y)`, both sorted, `merge` returns
`type_list<char, int>`, which is not a permutation of the concatenation.  When
either operand is empty the result is exactly the concatenation, for all
markers.  For plain operands each sorted by a total, transitive comparator,
`merge` yields a sorted permutation of the concatenation. -/
theorem merge_sorted :
    (merge Marker.ret [Marker.cv_const Marker.char] [Marker.int] test_less =
        some [Marker.char, Marker.int] ∧
      ¬ List.Perm [Marker.char, Marker.int]
        (concat [Marker.cv_const Marker.char] [Marker.int])) ∧
    (∀ (α : Type) (ret : α → Option α) (left right : List α) (less : α → α → Bool),
      (empty left || empty right) = true →
      merge ret left right less = some (concat left right)) ∧
    ∀ (α : Type) (ret : α → Option α) (left right : List α) (less : α → α → Bool),
      plain ret left → plain ret right →
      (∀ x y, less x y = true ∨ less y x = true) →
      (∀ x y z, less x y = true → less y z = true → less x z = true) →
      List.Chain' (fun a b => less a b = true) left →
      List.Chain' (fun a b => less a b = true) right →
      ∃ m, merge ret left right less = some m ∧
        List.Chain' (fun a b => less a b = true) m ∧ m.Perm (concat left right) := by
  refine ⟨⟨?_, ?_⟩, ?_, ?_⟩
  · simp [merge, front, empty, element, size, concat, push_front, test_less, Marker.sizeof,
      Marker.ret]
  · intro h
    have hm := h.mem_iff.mp (List.mem_cons_self Marker.char [Marker.int])
    simp [concat] at hm
  · intro α ret left right less he
    cases left with
    | nil => simp [merge]
    | cons a l =>
      cases right with
      | nil => simp [merge]
      | cons b r => simp [empty, size] at he
  · intro α ret left right less hpl hpr total trans hl hr
    rw [chain_iff_pairwise less trans] at hl hr
    refine ⟨List.merge left right less, merge_eq_list_merge ret left right less hpl hpr,
      ?_, List.merge_perm_append less⟩
    rw [chain_iff_pairwise less trans]
    exact list_merge_pairwise less total trans left right hl hr

/-- C6: ordered insertion and sortedness.  At `insert<double>` into
`type_list<const char, int>`, sorted by `sizeof(x) <= sizeof(y)`, the result is
`type_list<char, int, double>`, which is not a permutation of
`push_front(double, S)`.  For every marker and every plain list sorted by a
total, transitive comparator, `insert` yields a sorted list with
`size(S) + 1` slots that is a permutation of `push_front(T, S)`. -/
theorem insert_sorted :
    (insert Marker.ret Marker.double [Marker.cv_const Marker.char, Marker.int] test_less =
        some [Marker.char, Marker.int, Marker.double] ∧
      List.Chain' (fun a b => test_less a b = true)
        [Marker.cv_const Marker.char, Marker.int] ∧
      ¬ List.Perm [Marker.char, Marker.int, Marker.double]
        (push_front Marker.double [Marker.cv_const Marker.char, Marker.int])) ∧
    ∀ (α : Type) (ret : α → Option α) (type : α) (list : List α) (less : α → α → Bool),
      plain ret list →
      (∀ x y, less x y = true ∨ less y x = true) →
      (∀ x y z, less x y = true → less y z = true → less x z = true) →
      List.Chain' (fun a b => less a b = true) list →
      ∃ r, insert ret type list less = some r ∧
        List.Chain' (fun a b => less a b = true) r ∧
        size r = size list + 1 ∧ r.Perm (push_front type list) := by
  refine ⟨⟨?_, ?_, ?_⟩, ?_⟩
  · simp [insert, op_star, front_slice, front, empty, element, size, concat, push_front,
      test_less, Marker.sizeof, Marker.ret]
  · simp [test_less, Marker.sizeof]
  · intro h
    have hm := h.mem_iff.mp (List.mem_cons_self Marker.char [Marker.int, Marker.double])
    simp [push_front] at hm
  · intro α ret type list less hp total trans hs
    rw [chain_iff_pairwise less trans] at hs
    refine ⟨_, insert_eq ret type list less hp, ?_,
      (insert_shape_perm type list _).length_eq, insert_shape_perm type list _⟩
    rw [chain_iff_pairwise less trans]
    exact insert_shape_pairwise type list less total trans hs

/-- C7: the position of an ordered insertion.  At `insert<double>` into
`type_list<const char, int>` with `sizeof(x) <= sizeof(y)` the result is
`type_list<char, int, double>`, whereas the leading run of slots `x` with
`less(T, x)` false, then `T`, then the rest is
`type_list<const char, int, double>`.  For every marker, every plain list and
every comparator, `insert` is `concat(P, push_front(T, Q))` with `P` that
leading run and `Q` the rest; so `T` lands right before the first slot `x`
with `less(T, x)` true, and at the back when there is none. -/
theorem insert_position :
    (insert Marker.ret Marker.double [Marker.cv_const Marker.char, Marker.int] test_less =
        some [Marker.char, Marker.int, Marker.double] ∧
      concat ([Marker.cv_const Marker.char, Marker.int].takeWhile
          (fun x => !test_less Marker.double x))
        (push_front Marker.double ([Marker.cv_const Marker.char, Marker.int].dropWhile
          (fun x => !test_less Marker.double x))) =
        [Marker.cv_const Marker.char, Marker.int, Marker.double]) ∧
    ∀ (α : Type) (ret : α → Option α) (type : α) (list : List α) (less : α → α → Bool),
      plain ret list →
      insert ret type list less =
          some (concat (list.takeWhile (fun x => !less type x))
            (push_front type (list.dropWhile (fun x => !less type x)))) ∧
        (∀ p x q, list = concat p (push_front x q) → (∀ y ∈ p, less type y = false) →
          less type x = true →
          insert ret type list less = some (concat p (push_front type (push_front x q)))) ∧
        ((∀ y ∈ list, less type y = false) →
          insert ret type list less = some (push_back type list)) := by
  refine ⟨⟨?_, ?_⟩, ?_⟩
  · simp [insert, op_star, front_slice, front, empty, element, size, concat, push_front,
      test_less, Marker.sizeof, Marker.ret]
  · simp [concat, push_front, List.takeWhile_cons, List.dropWhile_cons, test_less,
      Marker.sizeof]
  · intro α ret type list less hp
    refine ⟨insert_eq ret type list less hp, ?_, ?_⟩
    · intro p x q hl hpre hx
      rw [insert_eq ret type list less hp, hl]
      simp only [concat, push_front]
      congr 1
      clear hp hl
      induction p with
      | nil => simp [List.takeWhile_cons, List.dropWhile_cons, hx]
      | cons t types ih =>
        have ht : less type t = false := hpre t (List.mem_cons_self t types)
        have ih2 := ih (fun y hy => hpre y (List.mem_cons_of_mem t hy))
        simp only [List.cons_append, List.takeWhile_cons, List.dropWhile_cons, ht,
          Bool.not_false, if_true]
        rw [ih2]
    · intro hall
      rw [insert_eq ret type list less hp]
      simp only [push_back]
      congr 1
      clear hp
      induction list with
      | nil => rfl
      | cons t types ih =>
        have ht : less type t = false := hall t (List.mem_cons_self t types)
        have ih2 := ih (fun y hy => hall y (List.mem_cons_of_mem t hy))
        simp only [List.cons_append, List.takeWhile_cons, List.dropWhile_cons, ht,
          Bool.not_false, if_true]
        rw [ih2]

/-- C8, at the empty sequence: `transform` of `type_list<>` with the mapping
`x -> type_list<x>` is rejected (its fold expression has no operand), whereas
on every non-empty sequence that mapping gives the sequence back. -/
theorem transform_singleton_empty :
    transform ([] : List Marker) (fun x => [x]) = none ∧
      ∀ list : List Marker, list ≠ [] → transform list (fun x => [x]) = some list := by
  refine ⟨rfl, ?_⟩
  intro list h
  rw [transform_eq list _ h]
  congr 1
  clear h
  induction list with
  | nil => rfl
  | cons t types ih => simpa using ih

/-- C9: `transform` is a flat-map on non-empty sequences.  The result is
`concat(f(x0), concat(f(x1), ...))` in slot order; a slot `x` contributes
exactly the slots of `f(x)` at its place (nothing when `f(x)` is empty, several
slots when `f(x)` is longer), so the size is the sum of the sizes of the
`f(x)`; and a slot of `f(x)` that is itself a `type_list` stays one slot. -/
theorem transform_flat_map (list : List α) (f : α → List β) (h : list ≠ []) :
    transform list f = some (List.foldr (fun x acc => concat (f x) acc) [] list) ∧
      transform list f = some (list.map f).flatten ∧
      (∀ p x q, list = p ++ x :: q →
        transform list f = some ((p.map f).flatten ++ f x ++ (q.map f).flatten)) ∧
      (∃ r, transform list f = some r ∧ size r = (list.map (fun x => size (f x))).sum) ∧
      (∀ g : α → List Marker, transform list (fun x => [Marker.type_list (g x)]) =
        some (list.map (fun x => Marker.type_list (g x)))) := by
  have hfold : ∀ l : List α,
      List.foldr (fun x acc => concat (f x) acc) [] l = (l.map f).flatten := by
    intro l
    induction l with
    | nil => rfl
    | cons t types ih =>
      simp only [concat] at ih
      simp [concat, ih]
  refine ⟨by rw [hfold]; exact transform_eq list f h, transform_eq list f h, ?_, ?_, ?_⟩
  · intro p x q hl
    rw [transform_eq list f h, hl]
    simp
  · refine ⟨_, transform_eq list f h, ?_⟩
    simp only [size, List.length_flatten, List.map_map]
    rfl
  · intro g
    rw [transform_eq list _ h]
    congr 1
    clear h
    induction list with
    | nil => rfl
    | cons t types ih => simpa using ih

theorem transform_flat_map_witness :
    [Marker.float, Marker.void, Marker.int] ≠ [] ∧
    transform [Marker.float, Marker.void, Marker.int] test_transform_f =
      some [Marker.float, Marker.type_list [], Marker.int] :=
  ⟨List.cons_ne_nil _ _,
    (transform_flat_map [Marker.float, Marker.void, Marker.int] test_transform_f
      (List.cons_ne_nil _ _)).2.1⟩

/-- C10: `contains` and `element`.  At `type_list<const int>`,
`contains<const int>` is true although no index has `element` equal to
`const int` (`element<0>` is `int`), and `contains<int>` is false although
`element<0>` is `int`.  For every list of plain markers, `contains<T>(L)` is
true exactly when some index `i < size(L)` has `element<i>(L) == T`; the
overload taking the one-slot list holding `T` gives the same answer for all
markers. -/
theorem contains_iff :
    (contains (Marker.cv_const Marker.int) [Marker.cv_const Marker.int] = true ∧
      (∀ i, element Marker.ret i [Marker.cv_const Marker.int] ≠
        some (Marker.cv_const Marker.int)) ∧
      contains Marker.int [Marker.cv_const Marker.int] = false ∧
      element Marker.ret 0 [Marker.cv_const Marker.int] = some Marker.int) ∧
    (∀ (α : Type) [DecidableEq α] (list : List α) (type : α),
      contains_slice list [type] = some (contains type list)) ∧
    ∀ (α : Type) [DecidableEq α] (ret : α → Option α) (list : List α) (type : α),
      plain ret list →
      (contains type list = true ↔ ∃ i, i < size list ∧ element ret i list = some type) := by
  refine ⟨⟨by decide, ?_, by decide, by decide⟩, fun _ _ _ _ => rfl, ?_⟩
  · intro i
    cases i with
    | zero => decide
    | succ n => simp [element, size]
  · intro α _ ret list type hp
    simp only [contains, exists_eq_any, meta.equal, List.any_eq_true, decide_eq_true_eq,
      element_eq ret _ list hp, size]
    constructor
    · rintro ⟨x, hx, rfl⟩
      obtain ⟨i, hi, hxi⟩ := List.mem_iff_getElem.mp hx
      exact ⟨i, hi, by rw [List.getElem?_eq_getElem hi, hxi]⟩
    · rintro ⟨i, hi, he⟩
      rw [List.getElem?_eq_getElem hi] at he
      exact ⟨list[i], List.getElem_mem hi, Option.some.inj he⟩

/-- C11: `reverse` and slot order.  At `type_list<const int>`, of arity 1,
`reverse` returns `type_list<int>` and not the list itself; at
`type_list<int[3]>` the call is rejected.  For every list of plain markers
`reverse` yields a result of the same size whose slot at every index
`i < size(S)` is the slot at `size(S) - 1 - i` of `S`, and a list of arity 0
or 1 is returned as it is. -/
theorem reverse_elements :
    reverse Marker.ret [Marker.cv_const Marker.int] = some [Marker.int] ∧
    reverse Marker.ret [Marker.array Marker.int 3] = none ∧
    ∀ (α : Type) (ret : α → Option α) (list : List α),
      plain ret list →
      ∃ r, reverse ret list = some r ∧ size r = size list ∧
        (∀ i, i < size list → ∃ x, element ret i r = some x ∧
          element ret (size list - 1 - i) list = some x) ∧
        (size list < 2 → r = list) := by
  refine ⟨by decide, by decide, ?_⟩
  intro α ret list hp
  have hpr : plain ret list.reverse :=
    plain_of_subset ret (fun _ hx => List.mem_reverse.mp hx) hp
  refine ⟨list.reverse, reverse_eq ret list hp, by simp [size], ?_, ?_⟩
  · intro i hi
    simp only [size] at hi
    have h2 : list.length - 1 - i < list.length := by omega
    refine ⟨list[list.length - 1 - i], ?_, ?_⟩
    · rw [element_eq ret _ _ hpr, List.getElem?_reverse hi, List.getElem?_eq_getElem h2]
    · rw [element_eq ret _ _ hp, size, List.getElem?_eq_getElem h2]
  · intro h
    match list, h with
    | [], _ => rfl
    | [a], _ => rfl
    | a :: b :: l, h =>
      simp only [size, List.length_cons] at h
      omega

/-- C12: `reverse` twice.  At `type_list<const int, char>`, reversing twice
gives `type_list<int, char>` and not the list.  For every list of plain
markers, `reverse` yields a result whose `reverse` is the list. -/
theorem reverse_reverse :
    (reverse Marker.ret [Marker.cv_const Marker.int, Marker.char] =
        some [Marker.char, Marker.int] ∧
      reverse Marker.ret [Marker.char, Marker.int] = some [Marker.int, Marker.char]) ∧
    ∀ (α : Type) (ret : α → Option α) (list : List α),
      plain ret list →
      ∃ r, reverse ret list = some r ∧ reverse ret r = some list := by
  refine ⟨⟨by decide, by decide⟩, ?_⟩
  intro α ret list hp
  have hpr : plain ret list.reverse :=
    plain_of_subset ret (fun _ hx => List.mem_reverse.mp hx) hp
  refine ⟨list.reverse, reverse_eq ret list hp, ?_⟩
  rw [reverse_eq ret list.reverse hpr, List.reverse_reverse]

/-- C13: popping after pushing.  At `push_back<int>` onto
`type_list<const char>`, `pop_back` gives `type_list<char>` and not the list.
`pop_front(push_front(T, L))` is `L` for all markers.  For every marker and
every list of plain markers, the empty one included,
`pop_back(push_back(T, L))` is `L`. -/
theorem pop_push :
    pop_back Marker.ret (push_back Marker.int [Marker.cv_const Marker.char]) =
      some [Marker.char] ∧
    (∀ (α : Type) (type : α) (list : List α),
      pop_front (push_front type list) = some list) ∧
    ∀ (α : Type) (ret : α → Option α) (type : α) (list : List α),
      plain ret list → pop_back ret (push_back type list) = some list := by
  refine ⟨by decide, fun _ _ _ => rfl, ?_⟩
  intro α ret type list hp
  exact pop_back_push_back ret type list hp

/-- C14: `concat` is associative and the empty sequence is its identity on
both sides. -/
theorem concat_assoc_identity (a b c list : List α) :
    concat (concat a b) c = concat a (concat b c) ∧
      concat list [] = list ∧ concat [] list = list := by
  simp [concat]

/-- C15: `swap` twice.  At `type_list<const int, char>`, `swap<0, 1>` gives
`type_list<char, int>` and swapping again gives `type_list<int, char>`, not the
list.  For every list of plain markers and all indices `i, j < size(L)`, in
either order or equal, `swap<i, j>(L)` is defined and swapping the same two
positions of the result gives `L` back. -/
theorem swap_involution :
    (swap Marker.ret 0 1 [Marker.cv_const Marker.int, Marker.char] =
        some [Marker.char, Marker.int] ∧
      swap Marker.ret 0 1 [Marker.char, Marker.int] = some [Marker.int, Marker.char]) ∧
    ∀ (α : Type) (ret : α → Option α) (list : List α) (i j : Nat),
      plain ret list → i < size list → j < size list →
      ∃ r, swap ret i j list = some r ∧ swap ret i j r = some list := by
  refine ⟨⟨by decide, by decide⟩, ?_⟩
  intro α ret list i j hp hi hj
  obtain ⟨r, h1, h2, _⟩ := swap_exchange ret list hp i j hi hj
  exact ⟨r, h1, h2⟩

/-- C16: what `swap` does.  At `type_list<int[3], char>` the call
`swap<0, 1>` is rejected although both indices are below the size: its inner
`range<0, 0>` is rejected.  For every list of plain markers and all indices
`i, j < size(S)`, `swap<i, j>(S)` is defined, has `size(S)` slots, holds the
slot `j` of `S` at position `i` and the slot `i` of `S` at position `j`, and
leaves every other position unchanged; the inner `range` and `slice` calls of
the overload for two distinct positions are all defined; `swap<i, j>` and
`swap<j, i>` agree and `swap<i, i>` returns `S`. -/
theorem swap_positions :
    (swap Marker.ret 0 1 [Marker.array Marker.int 3, Marker.char] = none ∧
      range Marker.ret 0 0 [Marker.array Marker.int 3, Marker.char] = none ∧
      1 < size [Marker.array Marker.int 3, Marker.char]) ∧
    ∀ (α : Type) (ret : α → Option α) (list : List α) (i j : Nat),
      plain ret list → i < size list → j < size list →
      ∃ r, swap ret i j list = some r ∧ size r = size list ∧
        (∃ x, element ret i r = some x ∧ element ret j list = some x) ∧
        (∃ y, element ret j r = some y ∧ element ret i list = some y) ∧
        (∀ k, k ≠ i → k ≠ j → element ret k r = element ret k list) ∧
        (i ≠ j →
          (range ret 0 (min i j) list).isSome = true ∧
          (slice ret (max i j) list).isSome = true ∧
          (range ret (min i j + 1) (max i j) list).isSome = true ∧
          (slice ret (min i j) list).isSome = true ∧
          (range ret (max i j + 1) (size list) list).isSome = true) ∧
        swap ret j i list = some r ∧ swap ret i i list = some list := by
  refine ⟨⟨by decide, by decide, by decide⟩, ?_⟩
  intro α ret list i j hp hi hj
  obtain ⟨r, h1, _, hpr, h3, h4, h5, h6⟩ := swap_exchange ret list hp i j hi hj
  have hi2 : i < list.length := hi
  have hj2 : j < list.length := hj
  refine ⟨r, h1, h3, ⟨list[j], ?_, ?_⟩, ⟨list[i], ?_, ?_⟩, ?_, ?_, ?_, ?_⟩
  · rw [element_eq ret _ _ hpr, h4, List.getElem?_eq_getElem hj2]
  · rw [element_eq ret _ _ hp, List.getElem?_eq_getElem hj2]
  · rw [element_eq ret _ _ hpr, h5, List.getElem?_eq_getElem hi2]
  · rw [element_eq ret _ _ hp, List.getElem?_eq_getElem hi2]
  · intro k hki hkj
    rw [element_eq ret _ _ hpr, element_eq ret _ _ hp]
    exact h6 k hki hkj
  · intro hne
    have hlo : min i j < size list := by
      simp only [size] at hi hj ⊢
      omega
    have hhi : max i j < size list := by
      simp only [size] at hi hj ⊢
      omega
    have hlt : min i j < max i j := by omega
    refine ⟨?_, ?_, ?_, ?_, ?_⟩
    · rw [range_eq ret _ _ _ hp, if_pos ⟨Nat.zero_le _, by omega⟩]
      rfl
    · rw [slice, Option.isSome_map']
      exact (element_some_iff ret _ _ hp).mpr hhi
    · rw [range_eq ret _ _ _ hp, if_pos ⟨by omega, by omega⟩]
      rfl
    · rw [slice, Option.isSome_map']
      exact (element_some_iff ret _ _ hp).mpr hlo
    · rw [range_eq ret _ _ _ hp, if_pos ⟨by omega, le_refl _⟩]
      rfl
  · rw [swap_comm]
    exact h1
  · simp [swap, hi]

/-- C17: removal by predicate.  At `type_list<const int, char>` with a
predicate that never holds, `remove` returns `type_list<int, char>`, not the
slots of the list that do not satisfy the predicate.  For every list of plain
markers, `remove(S, p)` is exactly the sub-sequence of the slots of `S` that do
not satisfy `p`, in their original order: no slot of the result satisfies `p`,
removing again changes nothing, and the empty sequence gives the empty
sequence. -/
theorem remove_predicate :
    (remove Marker.ret [Marker.cv_const Marker.int, Marker.char] (fun _ => false) =
        some [Marker.int, Marker.char] ∧
      [Marker.cv_const Marker.int, Marker.char].filter (fun _ => !false) =
        [Marker.cv_const Marker.int, Marker.char]) ∧
    ∀ (α : Type) (ret : α → Option α) (list : List α) (p : α → Bool),
      plain ret list →
      ∃ r, remove ret list p = some r ∧ r = list.filter (fun x => !p x) ∧
        List.Sublist r list ∧
        (∀ x, x ∈ r ↔ x ∈ list ∧ p x = false) ∧
        remove ret r p = some r ∧
        remove ret ([] : List α) p = some [] := by
  refine ⟨⟨by decide, by decide⟩, ?_⟩
  intro α ret list p hp
  have hpf : plain ret (list.filter (fun x => !p x)) :=
    plain_of_subset ret (fun _ hx => List.mem_of_mem_filter hx) hp
  refine ⟨_, remove_eq_filter ret list p hp, rfl, List.filter_sublist list, ?_, ?_, rfl⟩
  · intro x
    simp [List.mem_filter]
  · rw [remove_eq_filter ret _ p hpf, List.filter_filter]
    simp

/-- C18: when `range` is defined.  At `type_list<int[3], char>` the call
`range<0, 1>` is rejected although `0 <= 1 <= 2`: its inner `trim_back<1>` is
rejected.  For every list of plain markers, `range<first, last>(S)` is defined
exactly when `first <= last <= size(S)`; then the inner
`trim_back<size(S) - last>` and `trim_front<first>` calls are both defined, the
result has `last - first` slots, and its slot `k` is the slot `first + k` of
`S` for every `k < last - first`. -/
theorem range_defined :
    (range Marker.ret 0 1 [Marker.array Marker.int 3, Marker.char] = none ∧
      trim_back Marker.ret 1 [Marker.array Marker.int 3, Marker.char] = none ∧
      1 ≤ size [Marker.array Marker.int 3, Marker.char]) ∧
    ∀ (α : Type) (ret : α → Option α) (first last : Nat) (list : List α),
      plain ret list →
      ((range ret first last list).isSome = true ↔ first ≤ last ∧ last ≤ size list) ∧
        (first ≤ last ∧ last ≤ size list →
          ∃ t r, trim_back ret (size list - last) list = some t ∧
            trim_front first t = some r ∧
            range ret first last list = some r ∧ size r = last - first ∧
            ∀ k, k < last - first →
              ∃ x, element ret k r = some x ∧ element ret (first + k) list = some x) := by
  refine ⟨⟨by decide, by decide, by decide⟩, ?_⟩
  intro α ret first last list hp
  constructor
  · rw [range_eq ret _ _ _ hp]
    by_cases h : first ≤ last ∧ last ≤ size list
    · simp [h]
    · simp [h]
  · rintro ⟨h1, h2⟩
    have h3 : size list - last ≤ size list := Nat.sub_le _ _
    have h4 : size list - (size list - last) = last := by omega
    have h5 : first ≤ size (list.take last) := by
      simp only [size, List.length_take] at h2 ⊢
      omega
    have hpr : plain ret ((list.take last).drop first) :=
      plain_drop ret _ (plain_take ret _ hp)
    refine ⟨list.take last, (list.take last).drop first, ?_, ?_, ?_, ?_, ?_⟩
    · rw [trim_back_eq ret _ _ hp, if_pos h3, h4]
    · rw [trim_front_eq, if_pos h5]
    · rw [range_eq ret _ _ _ hp, if_pos ⟨h1, h2⟩]
    · simp only [size, List.length_drop, List.length_take] at h2 ⊢
      omega
    · intro k hk
      simp only [size] at h2
      have hk2 : first + k < list.length := by omega
      refine ⟨list[first + k], ?_, ?_⟩
      · rw [element_eq ret _ _ hpr, List.getElem?_drop, List.getElem?_take_of_lt (by omega),
          List.getElem?_eq_getElem hk2]
      · rw [element_eq ret _ _ hp, List.getElem?_eq_getElem hk2]

/-- C19: the two trims.  At `type_list<const int, char>`, `trim_back<1>` gives
`type_list<int>`, not the list without its last slot; at
`type_list<int[3], char>` it is rejected although `1 <= 2`.  `trim_front<n>(S)`
is defined exactly when `n <= size(S)` and is then `S` without its first `n`
slots, for all markers.  For every list of plain markers, `trim_back<n>(S)` is
defined exactly when `n <= size(S)` and is then `S` without its last `n`
slots, in order, with `size(S) - n` slots; `n == 0` returns `S`. -/
theorem trim_defined :
    (trim_back Marker.ret 1 [Marker.cv_const Marker.int, Marker.char] = some [Marker.int] ∧
      trim_back Marker.ret 1 [Marker.array Marker.int 3, Marker.char] = none) ∧
    (∀ (α : Type) (n : Nat) (list : List α),
      ((trim_front n list).isSome = true ↔ n ≤ size list) ∧
      (n ≤ size list →
        ∃ f, trim_front n list = some f ∧ f = list.drop n ∧
          (∃ cut, size cut = n ∧ list = concat cut f) ∧ size f = size list - n) ∧
      trim_front 0 list = some list) ∧
    ∀ (α : Type) (ret : α → Option α) (n : Nat) (list : List α),
      plain ret list →
      ((trim_back ret n list).isSome = true ↔ n ≤ size list) ∧
        (n ≤ size list →
          ∃ b, trim_back ret n list = some b ∧ b = list.take (size list - n) ∧
            (∃ cut, size cut = n ∧ list = concat b cut) ∧ size b = size list - n) ∧
        trim_back ret 0 list = some list := by
  refine ⟨⟨by decide, by decide⟩, ?_, ?_⟩
  · intro α n list
    refine ⟨?_, ?_, rfl⟩
    · rw [trim_front_eq]
      by_cases h : n ≤ size list <;> simp [h]
    · intro h
      refine ⟨list.drop n, ?_, rfl, ⟨list.take n, ?_, ?_⟩, ?_⟩
      · rw [trim_front_eq, if_pos h]
      · simp only [size, List.length_take] at h ⊢
        omega
      · simp [concat]
      · simp [size]
  · intro α ret n list hp
    refine ⟨?_, ?_, rfl⟩
    · rw [trim_back_eq ret _ _ hp]
      by_cases h : n ≤ size list <;> simp [h]
    · intro h
      refine ⟨list.take (size list - n), ?_, rfl, ⟨list.drop (size list - n), ?_, ?_⟩, ?_⟩
      · rw [trim_back_eq ret _ _ hp, if_pos h]
      · simp only [size, List.length_drop] at h ⊢
        omega
      · simp [concat]
      · simp only [size, List.length_take] at h ⊢
        omega

/-- C20: insertion by index.  At `insert<1, float>` into `type_list<const int>`
the result is `type_list<int, float>`, not `push_back`'s
`type_list<const int, float>`; `insert<0, const int>` into `type_list<>` holds
`const int` at position 0, where `element<0>` is `int`; at `type_list<int[3]>`
the call `insert<1, float>` is rejected although `1 <= 1`.  For every list of
plain markers, `insert<index, T>(S)` is defined exactly when
`index <= size(S)`; then the result has `size(S) + 1` slots, holds `T` at
position `index` (read by `element` when `T` is plain), keeps the slots of `S`
before `index` and shifts the slots from `index` on by one; inserting at
`size(S)` is `push_back` and inserting at `0` is `push_front`. -/
theorem insert_index_defined :
    (insert_index Marker.ret 1 Marker.float [Marker.cv_const Marker.int] =
        some [Marker.int, Marker.float] ∧
      push_back Marker.float [Marker.cv_const Marker.int] =
        [Marker.cv_const Marker.int, Marker.float] ∧
      insert_index Marker.ret 0 (Marker.cv_const Marker.int) [] =
        some [Marker.cv_const Marker.int] ∧
      element Marker.ret 0 [Marker.cv_const Marker.int] = some Marker.int ∧
      insert_index Marker.ret 1 Marker.float [Marker.array Marker.int 3] = none) ∧
    ∀ (α : Type) (ret : α → Option α) (index : Nat) (type : α) (list : List α),
      plain ret list →
      ((insert_index ret index type list).isSome = true ↔ index ≤ size list) ∧
        (index ≤ size list →
          ∃ r, insert_index ret index type list = some r ∧ size r = size list + 1 ∧
            r[index]? = some type ∧
            (ret type = some type → element ret index r = some type) ∧
            (∀ k, k < index → element ret k r = element ret k list) ∧
            (∀ k, index ≤ k → element ret (k + 1) r = element ret k list)) ∧
        insert_index ret (size list) type list = some (push_back type list) ∧
        insert_index ret 0 type list = some (push_front type list) := by
  refine ⟨⟨by decide, by decide, by decide, by decide, by decide⟩, ?_⟩
  intro α ret index type list hp
  refine ⟨?_, ?_, ?_, rfl⟩
  · rw [insert_index_eq ret _ _ _ hp]
    by_cases h : index ≤ size list <;> simp [h]
  · intro h0
    have h : index ≤ list.length := h0
    have hlen : (list.take index).length = index := by
      rw [List.length_take]
      omega
    have hidx : (list.take index ++ type :: list.drop index)[index]? = some type := by
      have hx := getElem_opt_append_cons_length (list.take index) (list.drop index) type
      rw [hlen] at hx
      exact hx
    have hlow : ∀ k, k < index →
        (list.take index ++ type :: list.drop index)[k]? = list[k]? := by
      intro k hk
      rw [List.getElem?_append_left (by omega), List.getElem?_take_of_lt hk]
    have hhigh : ∀ k, index ≤ k →
        (list.take index ++ type :: list.drop index)[k + 1]? = list[k]? := by
      intro k hk
      rw [List.getElem?_append_right (by omega), hlen]
      have hsub : k + 1 - index = (k - index) + 1 := by omega
      rw [hsub, List.getElem?_cons_succ, List.getElem?_drop]
      congr 1
      omega
    refine ⟨list.take index ++ type :: list.drop index, ?_, ?_, hidx, ?_, ?_, ?_⟩
    · rw [insert_index_eq ret _ _ _ hp, if_pos h0]
    · simp only [size, List.length_append, List.length_cons, List.length_take,
        List.length_drop]
      omega
    · intro ht
      exact element_of_getElem ret index _ type hidx ht
    · intro k hk
      exact element_agree ret k k _ list hp (hlow k hk)
    · intro k hk
      exact element_agree ret (k + 1) k _ list hp (hhigh k hk)
  · rw [insert_index_eq ret _ _ _ hp, if_pos (le_refl _)]
    simp [size, push_back]

/-- C21: removal by index.  Removing at index 1 what `insert<1, float>` put
into `type_list<const int>` gives `type_list<int>`, not the list; at
`type_list<int[3], char>` the call `remove<1>` is rejected although `1 < 2`.
For every list of plain markers, `remove<index>(S)` is defined exactly when
`index < size(S)`; then the result has `size(S) - 1` slots, keeps the slots of
`S` before `index` and moves each slot after `index` one position down; and
removing at `index` what was inserted at `index` gives `S` back, for every
`index <= size(S)` and every marker inserted. -/
theorem remove_index_defined :
    (insert_index Marker.ret 1 Marker.float [Marker.cv_const Marker.int] =
        some [Marker.int, Marker.float] ∧
      remove_index Marker.ret 1 [Marker.int, Marker.float] = some [Marker.int] ∧
      remove_index Marker.ret 1 [Marker.array Marker.int 3, Marker.char] = none ∧
      1 < size [Marker.array Marker.int 3, Marker.char]) ∧
    ∀ (α : Type) (ret : α → Option α) (index : Nat) (list : List α),
      plain ret list →
      ((remove_index ret index list).isSome = true ↔ index < size list) ∧
        (index < size list →
          ∃ r, remove_index ret index list = some r ∧ size r = size list - 1 ∧
            (∀ k, k < index → element ret k r = element ret k list) ∧
            (∀ k, index ≤ k → element ret k r = element ret (k + 1) list)) ∧
        (∀ type : α, index ≤ size list →
          ∃ r, insert_index ret index type list = some r ∧
            remove_index ret index r = some list) := by
  refine ⟨⟨by decide, by decide, by decide, by decide⟩, ?_⟩
  intro α ret index list hp
  refine ⟨?_, ?_, ?_⟩
  · rw [remove_index_eq ret _ _ hp]
    by_cases h : index < size list <;> simp [h]
  · intro h0
    have h : index < list.length := h0
    have hlen : (list.take index).length = index := by
      rw [List.length_take]
      omega
    refine ⟨list.take index ++ list.drop (index + 1), ?_, ?_, ?_, ?_⟩
    · rw [remove_index_eq ret _ _ hp, if_pos h0]
    · simp only [size, List.length_append, List.length_take, List.length_drop]
      omega
    · intro k hk
      refine element_agree ret k k _ list hp ?_
      rw [List.getElem?_append_left (by omega), List.getElem?_take_of_lt hk]
    · intro k hk
      refine element_agree ret k (k + 1) _ list hp ?_
      rw [List.getElem?_append_right (by omega), hlen, List.getElem?_drop]
      congr 1
      omega
  · intro type h0
    refine ⟨list.take index ++ type :: list.drop index, ?_,
      remove_index_insert ret type index list hp h0⟩
    rw [insert_index_eq ret _ _ _ hp, if_pos h0]

/-- C22: when `element` is defined and what it gives.  At
`type_list<const int, char>`, `element<0>` is `int`, not the first slot; at
`type_list<int[3], char>`, `element<0>` is rejected although `0 < 2`.  On the
empty list `element` is rejected for every index.  For every list of plain
markers, `element<index>(S)` is defined exactly when `index < size(S)`; it is
the marker at position `index`: index `0` gives the first slot, index `k + 1`
gives `element<k>` of the tail; and `slice<index>(S)` is the one-slot list
holding it. -/
theorem element_defined :
    (element Marker.ret 0 [Marker.cv_const Marker.int, Marker.char] = some Marker.int ∧
      element Marker.ret 0 [Marker.array Marker.int 3, Marker.char] = none ∧
      0 < size [Marker.array Marker.int 3, Marker.char]) ∧
    (∀ (α : Type) (ret : α → Option α) (index : Nat),
      element ret index ([] : List α) = none) ∧
    ∀ (α : Type) (ret : α → Option α) (index : Nat) (list : List α),
      plain ret list →
      ((element ret index list).isSome = true ↔ index < size list) ∧
        (∀ (t : α) (types : List α), list = t :: types → element ret 0 list = some t) ∧
        (∀ (k : Nat) (t : α) (types : List α), list = t :: types →
          element ret (k + 1) list = element ret k types) ∧
        ((slice ret index list).isSome = true ↔ index < size list) ∧
        (∀ x, element ret index list = some x → slice ret index list = some [x]) ∧
        element ret index list = list[index]? := by
  refine ⟨⟨by decide, by decide, by decide⟩, ?_, ?_⟩
  · intro α ret index
    cases index <;> rfl
  · intro α ret index list hp
    refine ⟨element_some_iff ret index list hp, ?_, ?_, ?_, ?_, element_eq ret index list hp⟩
    · intro t types hl
      subst hl
      rw [element_eq ret 0 _ hp, List.getElem?_cons_zero]
    · intro k t types hl
      subst hl
      rw [element_eq ret _ _ hp, element_eq ret _ _ ((plain_cons ret t types).mp hp).2,
        List.getElem?_cons_succ]
    · rw [slice, Option.isSome_map']
      exact element_some_iff ret index list hp
    · intro x hx
      rw [slice, hx]
      rfl

/-- C23: the accessors at the two ends.  At `type_list<int[3]>`, which is not
empty, `front`, `back`, `front_slice`, `back_slice`, `*` and `!` are rejected,
and at `type_list<int[3], char>` so are `pop_back` and postfix `--`.  On the
empty list all ten are rejected, and `pop_front` and prefix `--` are defined
on every non-empty list, for all markers.  For every non-empty list of plain
markers all ten are defined, `front` is `element<0>` and `back` is
`element<size - 1>`. -/
theorem ends_defined :
    (front Marker.ret [Marker.array Marker.int 3] = none ∧
      back Marker.ret [Marker.array Marker.int 3] = none ∧
      front_slice Marker.ret [Marker.array Marker.int 3] = none ∧
      back_slice Marker.ret [Marker.array Marker.int 3] = none ∧
      op_star Marker.ret [Marker.array Marker.int 3] = none ∧
      op_not Marker.ret [Marker.array Marker.int 3] = none ∧
      pop_back Marker.ret [Marker.array Marker.int 3, Marker.char] = none ∧
      op_post_decrement Marker.ret [Marker.array Marker.int 3, Marker.char] = none) ∧
    (∀ (α : Type) (ret : α → Option α),
      front ret ([] : List α) = none ∧ back ret ([] : List α) = none ∧
      front_slice ret ([] : List α) = none ∧ back_slice ret ([] : List α) = none ∧
      pop_front ([] : List α) = none ∧ pop_back ret ([] : List α) = none ∧
      op_star ret ([] : List α) = none ∧ op_not ret ([] : List α) = none ∧
      op_pre_decrement ([] : List α) = none ∧
      op_post_decrement ret ([] : List α) = none) ∧
    (∀ (α : Type) (list : List α), list ≠ [] →
      (pop_front list).isSome = true ∧ (op_pre_decrement list).isSome = true) ∧
    ∀ (α : Type) (ret : α → Option α) (list : List α),
      plain ret list → list ≠ [] →
      (front ret list).isSome = true ∧ (back ret list).isSome = true ∧
        (front_slice ret list).isSome = true ∧ (back_slice ret list).isSome = true ∧
        (pop_front list).isSome = true ∧ (pop_back ret list).isSome = true ∧
        (op_star ret list).isSome = true ∧ (op_not ret list).isSome = true ∧
        (op_pre_decrement list).isSome = true ∧
        (op_post_decrement ret list).isSome = true ∧
        front ret list = element ret 0 list ∧
        back ret list = element ret (size list - 1) list := by
  refine ⟨⟨by decide, by decide, by decide, by decide, by decide, by decide, by decide,
    by decide⟩, ?_, ?_, ?_⟩
  · intro α ret
    exact ⟨rfl, rfl, rfl, rfl, rfl, rfl, rfl, rfl, rfl, rfl⟩
  · intro α list hne
    cases list with
    | nil => exact absurd rfl hne
    | cons t types => exact ⟨rfl, rfl⟩
  · intro α ret list hp hne
    have hpos : 0 < size list := by
      cases list with
      | nil => exact absurd rfl hne
      | cons t types => simp [size]
    have hz : ¬ size list = 0 := by omega
    have he : (!empty list) = true := by simp [empty, hz]
    have hret : ∀ k, (element ret k list).bind ret = element ret k list := by
      intro k
      rw [element_eq ret k list hp]
      cases hx : list[k]? with
      | none => rfl
      | some x => exact hp x (List.getElem?_mem hx)
    have hf : front ret list = element ret 0 list := by rw [front, if_pos he, hret]
    have hb : back ret list = element ret (size list - 1) list := by
      rw [back, if_pos he, hret]
    have hfs : (front ret list).isSome = true := by
      rw [hf]
      exact (element_some_iff ret 0 list hp).mpr hpos
    have hbs : (back ret list).isSome = true := by
      rw [hb]
      exact (element_some_iff ret _ list hp).mpr (by omega)
    have hfsl : (front_slice ret list).isSome = true := by
      rw [front_slice, if_pos he, Option.isSome_map']
      exact hfs
    have hbsl : (back_slice ret list).isSome = true := by
      rw [back_slice, if_pos he, Option.isSome_map']
      exact hbs
    have hpf : (pop_front list).isSome = true := by
      rw [pop_front_eq, if_neg hz]
      rfl
    have hpb : (pop_back ret list).isSome = true := by
      rw [pop_back_eq ret list hp, if_neg hz]
      rfl
    exact ⟨hfs, hbs, hfsl, hbsl, hpf, hpb, hfsl, hbsl, hpf, hpb, hf, hb⟩

/-- C24: `for_all(S, p)` is true exactly when every slot of `S` satisfies `p`,
and `exists(S, p)` exactly when at least one does; on the empty sequence
`for_all` is true and `exists` is false, and `exists(S, p)` is the negation of
`for_all(S, not p)`. -/
theorem for_all_exists (list : List α) (p : α → Bool) :
    (for_all list p = true ↔ ∀ x ∈ list, p x = true) ∧
      (exists_ list p = true ↔ ∃ x ∈ list, p x = true) ∧
      for_all ([] : List α) p = true ∧ exists_ ([] : List α) p = false ∧
      exists_ list p = !for_all list (fun x => !p x) := by
  refine ⟨?_, ?_, rfl, rfl, ?_⟩
  · rw [for_all_eq_all, List.all_eq_true]
  · rw [exists_eq_any, List.any_eq_true]
  · rw [for_all_eq_all, exists_eq_any]
    induction list with
    | nil => rfl
    | cons t types ih =>
      rw [List.any_cons, List.all_cons, ih]
      cases p t <;> simp


/-- C25: `sort` yields a result.  At `type_list<int[3], char>` the call to
`sort` is rejected: `range<0, 1>` of the list is rejected although
`0 <= 1 <= 2`.  For all markers, a list of fewer than two slots is returned at
once, a half that `range` yields is strictly shorter than a list of two or
more slots, each recursive call of `merge` is on operands whose sizes add up
to strictly less, and `merge` stops when an operand is empty.  For every list
of plain markers `sort` yields a result, and with two or more slots both
`range<0, half>` and `range<half, n>` (`half = n / 2`) are defined, are
strictly shorter than the list, and `sort` is the merge of their sorted
results. -/
theorem sort_terminates :
    (sort Marker.ret [Marker.array Marker.int 3, Marker.char] test_less = none ∧
      range Marker.ret 0 (size [Marker.array Marker.int 3, Marker.char] / 2)
        [Marker.array Marker.int 3, Marker.char] = none ∧
      0 ≤ size [Marker.array Marker.int 3, Marker.char] / 2 ∧
      size [Marker.array Marker.int 3, Marker.char] / 2 ≤
        size [Marker.array Marker.int 3, Marker.char]) ∧
    (∀ (α : Type) (ret : α → Option α) (list : List α) (less : α → α → Bool),
      (size list < 2 → sort ret list less = some list) ∧
      (2 ≤ size list →
        (∀ l, range ret 0 (size list / 2) list = some l → size l < size list) ∧
        (∀ r, range ret (size list / 2) (size list) list = some r →
          size r < size list)) ∧
      (∀ (a b : α) (l r : List α),
        merge ret (a :: l) (b :: r) less =
            (front ret (a :: l)).bind (fun x => (front ret (b :: r)).bind (fun y =>
              if less x y then (merge ret l (b :: r) less).map (fun m => push_front x m)
              else (merge ret (a :: l) r less).map (fun m => push_front y m))) ∧
          size l + size (b :: r) < size (a :: l) + size (b :: r) ∧
          size (a :: l) + size r < size (a :: l) + size (b :: r)) ∧
      (∀ left right : List α, (empty left || empty right) = true →
        merge ret left right less = some (concat left right))) ∧
    ∀ (α : Type) (ret : α → Option α) (list : List α) (less : α → α → Bool),
      plain ret list →
      (∃ r, sort ret list less = some r) ∧
      (2 ≤ size list →
        ∃ l r, range ret 0 (size list / 2) list = some l ∧
          range ret (size list / 2) (size list) list = some r ∧
          size l < size list ∧ size r < size list ∧
          sort ret list less =
            (sort ret l less).bind (fun sl => (sort ret r less).bind (fun sr =>
              merge ret sl sr less))) := by
  refine ⟨⟨?_, by decide, by decide, by decide⟩, ?_, ?_⟩
  · simp [sort, range, trim_front, trim_back, pop_front, pop_back, op_star, front_slice,
      front, empty, element, size, Marker.ret]
  · intro α ret list less
    refine ⟨sort_small ret list less, ?_, ?_, ?_⟩
    · intro h
      constructor
      · intro l hl
        have h1 := range_size ret hl
        omega
      · intro r hr
        have h1 := range_size ret hr
        omega
    · intro a b l r
      refine ⟨?_, ?_, ?_⟩
      · rw [merge]
      · simp [size]
      · simp [size]
    · intro left right he
      cases left with
      | nil => simp [merge]
      | cons a l =>
        cases right with
        | nil => simp [merge]
        | cons b r => simp [empty, size] at he
  · intro α ret list less hp
    constructor
    · obtain ⟨r, hr, _⟩ := sort_induction ret less (fun _ _ => True) (fun _ _ => trivial)
        (fun _ _ _ _ _ _ => trivial) list hp
      exact ⟨r, hr⟩
    · intro h
      have h2 : ¬ size list < 2 := by omega
      refine ⟨list.take (size list / 2), list.drop (size list / 2), ?_, ?_, ?_, ?_,
        sort_step ret list less hp h2⟩
      · rw [range_eq ret _ _ list hp, if_pos ⟨Nat.zero_le _, by omega⟩]
        rfl
      · rw [range_eq ret _ _ list hp, if_pos ⟨by omega, le_refl _⟩, size, List.take_length]
      · simp only [size, List.length_take] at h ⊢
        omega
      · simp only [size, List.length_drop] at h ⊢
        omega

/-- C27: `sort` with a strict comparator.  At `type_list<const int, char>`
with `sizeof(x) > sizeof(y)`, a strict weak order, `sort` returns
`type_list<int, char>`: the slots equivalent to `const int` are `[int]` in the
result and `[const int]` in the input, and `type_list<int[3], char>` is
rejected.  For every list of plain markers and every strict weak order
(irreflexive, transitive, incomparability transitive), `sort` yields a result
that is ordered by `less`, read as: no slot is `less` than a slot before it.
Every class of equivalent markers (neither `less` than the other) appears in
the reverse of its input order, so two equivalent markers `a`, `b` occurring
in this order in `L` occur as `b`, `a` in the result.  The result is the
stable sort of `reverse(L)`: every ordered list that keeps each class in the
order of `reverse(L)` equals it, and so does `sort` of `reverse(L)` with the
stable comparator "not greater". -/
theorem sort_strict_reverses_ties :
    (sort Marker.ret [Marker.cv_const Marker.int, Marker.char] test_greater =
        some [Marker.int, Marker.char] ∧
      [Marker.int, Marker.char].filter
          (fun x => !test_greater x (Marker.cv_const Marker.int) &&
            !test_greater (Marker.cv_const Marker.int) x) = [Marker.int] ∧
      ([Marker.cv_const Marker.int, Marker.char].filter
          (fun x => !test_greater x (Marker.cv_const Marker.int) &&
            !test_greater (Marker.cv_const Marker.int) x)).reverse =
        [Marker.cv_const Marker.int] ∧
      sort Marker.ret [Marker.array Marker.int 3, Marker.char] test_greater = none ∧
      (∀ x, test_greater x x = false) ∧
      (∀ x y z, test_greater x y = true → test_greater y z = true →
        test_greater x z = true) ∧
      (∀ x y z, test_greater x y = false → test_greater y x = false →
        test_greater y z = false → test_greater z y = false →
        test_greater x z = false ∧ test_greater z x = false)) ∧
    ∀ (α : Type) (ret : α → Option α) (list : List α) (less : α → α → Bool),
      plain ret list →
      (∀ x, less x x = false) →
      (∀ x y z, less x y = true → less y z = true → less x z = true) →
      (∀ x y z, less x y = false → less y x = false → less y z = false →
        less z y = false → less x z = false ∧ less z x = false) →
      ∃ r, sort ret list less = some r ∧
        List.Pairwise (fun a b => less b a = false) r ∧
        (∀ c, r.filter (fun x => !less x c && !less c x) =
          (list.filter (fun x => !less x c && !less c x)).reverse) ∧
        (∀ a b, less a b = false → less b a = false →
          List.Sublist [a, b] list → List.Sublist [b, a] r) ∧
        (∀ s, List.Pairwise (fun a b => less b a = false) s →
          (∀ c, s.filter (fun x => !less x c && !less c x) =
            list.reverse.filter (fun x => !less x c && !less c x)) → s = r) ∧
        ∃ rl, reverse ret list = some rl ∧
          sort ret rl (fun x y => !less y x) = some r := by
  refine ⟨⟨?_, ?_, ?_, ?_, test_greater_irrefl, test_greater_trans, test_greater_incomp⟩, ?_⟩
  · simp [sort, range, trim_front, trim_back, pop_front, pop_back, op_star, front_slice,
      merge, front, empty, element, size, concat, push_front, test_greater, Marker.sizeof,
      Marker.ret]
  · simp [List.filter_cons, test_greater, Marker.sizeof]
  · simp [List.filter_cons, test_greater, Marker.sizeof]
  · simp [sort, range, trim_front, trim_back, pop_front, pop_back, op_star, front_slice,
      front, empty, element, size, Marker.ret]
  · intro α ret list less hpl irrefl trans incomp
    have pw : ∀ l : List α,
        List.Pairwise (fun a b => less b a = false) l ↔
          List.Pairwise (fun a b => (!less b a) = true) l := by
      intro l
      simp only [Bool.not_eq_true']
    have total := not_greater_total less irrefl trans
    have trans2 := not_greater_trans less trans incomp
    obtain ⟨r, hr, _, hp, hf⟩ := sort_strict_reversed ret less irrefl trans incomp list hpl
    have hfrev : ∀ c, r.filter (fun x => !less x c && !less c x) =
        list.reverse.filter (fun x => !less x c && !less c x) := by
      intro c
      rw [hf c, List.filter_reverse]
    have uniq : ∀ s, List.Pairwise (fun a b => less b a = false) s →
        (∀ c, s.filter (fun x => !less x c && !less c x) =
          list.reverse.filter (fun x => !less x c && !less c x)) → s = r := by
      intro s hs hsf
      refine sorted_unique (fun x y => !less y x) total s r ((pw s).mp hs) hp ?_
      intro c
      rw [hsf c, hfrev c]
    have hprev : plain ret list.reverse :=
      plain_of_subset ret (fun x hx => List.mem_reverse.mp hx) hpl
    obtain ⟨r2, hr2, _, hp2, hf2⟩ :=
      sort_pairwise_stable ret (fun x y => !less y x) total trans2 list.reverse hprev
    have hr2r : r2 = r := uniq r2 ((pw r2).mpr hp2) hf2
    refine ⟨r, hr, (pw r).mpr hp, hf, ?_, uniq, list.reverse, reverse_eq ret list hpl, ?_⟩
    · intro a b hab hba hsub
      have h1 : List.Sublist ([a, b].filter (fun x => !less x a && !less a x))
          (list.filter (fun x => !less x a && !less a x)) := hsub.filter _
      have h2 : [a, b].filter (fun x => !less x a && !less a x) = [a, b] := by
        simp [List.filter_cons, irrefl a, hab, hba]
      rw [h2] at h1
      have h3 := h1.reverse
      rw [← hf a] at h3
      exact h3.trans (List.filter_sublist _)
    · rw [hr2, hr2r]

/-- C28: rebuilding a list from its parts.  At `type_list<const int>`,
`pop_back` is the empty list and `back_slice` is `type_list<int>`, whose
concatenation is not the list; at `type_list<const int, char>`, `front_slice`
is `type_list<int>` and `pop_front` is `type_list<char>`, whose concatenation
is not the list either.  For every non-empty list of plain markers all four
parts are defined, `pop_back(S)` followed by `back_slice(S)` is `S`, and
`front_slice(S)` followed by `pop_front(S)` is `S`. -/
theorem rebuild_from_parts :
    (pop_back Marker.ret [Marker.cv_const Marker.int] = some [] ∧
      back_slice Marker.ret [Marker.cv_const Marker.int] = some [Marker.int] ∧
      concat [] [Marker.int] ≠ [Marker.cv_const Marker.int] ∧
      front_slice Marker.ret [Marker.cv_const Marker.int, Marker.char] =
        some [Marker.int] ∧
      pop_front [Marker.cv_const Marker.int, Marker.char] = some [Marker.char] ∧
      concat [Marker.int] [Marker.char] ≠ [Marker.cv_const Marker.int, Marker.char]) ∧
    ∀ (α : Type) (ret : α → Option α) (list : List α),
      plain ret list → list ≠ [] →
      (∃ init last, pop_back ret list = some init ∧ back_slice ret list = some last ∧
        concat init last = list) ∧
      (∃ first rest, front_slice ret list = some first ∧ pop_front list = some rest ∧
        concat first rest = list) := by
  refine ⟨⟨by decide, by decide, by decide, by decide, by decide, by decide⟩, ?_⟩
  intro α ret list hp h
  constructor
  · rcases List.eq_nil_or_concat list with h0 | ⟨L, b, hl⟩
    · exact absurd h0 h
    · rw [List.concat_eq_append] at hl
      subst hl
      have hz : ¬ size (L ++ [b]) = 0 := by simp [size]
      have he : (!empty (L ++ [b])) = true := by simp [empty, hz]
      have hb : ret b = some b := hp b (by simp)
      refine ⟨L, [b], ?_, ?_, rfl⟩
      · rw [pop_back_eq ret _ hp, if_neg hz]
        simp
      · have hs : size (L ++ [b]) - 1 = L.length := by simp [size]
        rw [back_slice, if_pos he, back, if_pos he, hs, element_eq ret _ _ hp,
          getElem_opt_append_cons_length]
        simp [hb]
  · cases list with
    | nil => exact absurd rfl h
    | cons t types =>
      have ht : ret t = some t := hp t (by simp)
      refine ⟨[t], types, ?_, rfl, rfl⟩
      have h1 := op_star_cons ret t types ht
      rw [op_star] at h1
      exact h1

end lyra.xstd
